import Mathlib

/-!
# kafka-logging-system: verification of the LogEntry codec and the producer/consumer loops

Shallow embedding of the Go sources:
* `internal/models/log.go` — `LogLevel`, `LogEntry`, `ToJson` (`json.Marshal`),
  `FromJson` (`json.Unmarshal`);
* the producer (`generateLogEntry`, `sendLog`, the tick loop of `main`);
* the consumer (`ConsumeClaim`, `proccessLogMessage`, `displayLog`, the
  session loop of `main`).

The serialized form is modelled down to the byte (character) level: a JSON
renderer and parser over `List Char` following the behaviour of Go's
`encoding/json` on this struct (string fields, object with the four tagged
keys, missing keys keep zero values, unknown keys are ignored, duplicate
keys are decoded in order with the last write winning, `null` leaves a
field unchanged), and an RFC 3339 printer/parser following `time.Time`'s
`MarshalJSON`/`UnmarshalJSON` (including the documented failure of
`MarshalJSON` for years outside [0,9999] and the trailing-zero trimming of
the fractional second in `RFC3339Nano`).

Abstraction boundaries (documented deviations, none load-bearing for the
claims): Go strings are modelled as Lean `String`/`List Char` (valid
unicode only, so the U+FFFD replacement of invalid UTF-8 bytes does not
arise); the JSON value grammar covers the constructs these records can
contain (strings, objects, booleans, `null`) — inputs holding numbers or
arrays fail at parse in the model where Go would fail at decode; `\u`
escapes of surrogate halves are a parse error rather than U+FFFD; the
monotonic-clock reading and the time-zone name of a `time.Time`, which the
serialized form does not carry, are outside the model, so equality of
timestamps is equality of the serialized wall-clock content.
-/

/-! ## Timestamps: the wall-clock content of a Go `time.Time` -/

/-- Wall-clock content of a `time.Time` as it appears in its RFC 3339
serialized form: calendar fields, nanoseconds, and the zone offset in
minutes east of UTC. -/
structure Timestamp where
  year : Int
  month : Nat
  day : Nat
  hour : Nat
  minute : Nat
  second : Nat
  nanos : Nat
  offsetMin : Int
deriving DecidableEq, Repr

/-- Leap-year rule used by `time.Date` normalization. -/
def isLeap (y : Int) : Bool := y % 4 == 0 && (y % 100 != 0 || y % 400 == 0)

/-- Length of a month, as Go's `time` package computes it. -/
def daysInMonth (y : Int) (m : Nat) : Nat :=
  match m with
  | 1 => 31
  | 2 => if isLeap y then 29 else 28
  | 3 => 31
  | 4 => 30
  | 5 => 31
  | 6 => 30
  | 7 => 31
  | 8 => 31
  | 9 => 30
  | 10 => 31
  | 11 => 30
  | 12 => 31
  | _ => 0

/-- The invariant a normalized `time.Time` within `MarshalJSON`'s supported
year range satisfies: calendar-valid fields, nanoseconds below one second,
zone offset strictly within a day. -/
def Timestamp.Valid (t : Timestamp) : Prop :=
  0 ≤ t.year ∧ t.year < 10000 ∧
  1 ≤ t.month ∧ t.month ≤ 12 ∧
  1 ≤ t.day ∧ t.day ≤ daysInMonth t.year t.month ∧
  t.hour < 24 ∧ t.minute < 60 ∧ t.second < 60 ∧
  t.nanos < 1000000000 ∧
  -(24 * 60) < t.offsetMin ∧ t.offsetMin < 24 * 60

instance (t : Timestamp) : Decidable t.Valid := by
  unfold Timestamp.Valid; infer_instance

/-- The zero `time.Time`: January 1, year 1, 00:00:00 UTC. -/
def zeroTimestamp : Timestamp := ⟨1, 1, 1, 0, 0, 0, 0, 0⟩

/-! ## Decimal digit rendering and reading -/

/-- The ASCII digit character for `d < 10`. -/
def digitChar (d : Nat) : Char := Char.ofNat (48 + d)

/-- Two-digit zero-padded decimal field (Go layout element `01`/`04`…),
for values below 100. -/
def render2 (n : Nat) : List Char := [digitChar (n / 10 % 10), digitChar (n % 10)]

/-- Four-digit zero-padded decimal field (Go layout element `2006`),
for values below 10000. -/
def render4 (n : Nat) : List Char :=
  [digitChar (n / 1000 % 10), digitChar (n / 100 % 10),
   digitChar (n / 10 % 10), digitChar (n % 10)]

/-- `k` decimal digits of `n`, most significant first (zero padded). -/
def renderDigits : Nat → Nat → List Char
  | 0, _ => []
  | k + 1, n => renderDigits k (n / 10) ++ [digitChar (n % 10)]

/-- The decimal value of a digit character. -/
def digit? (c : Char) : Option Nat :=
  if c.isDigit then some (c.toNat - 48) else none

/-- Read exactly two digit characters. -/
def read2 : List Char → Option (Nat × List Char)
  | c1 :: c2 :: r =>
    match digit? c1, digit? c2 with
    | some d1, some d2 => some (10 * d1 + d2, r)
    | _, _ => none
  | _ => none

/-- Read exactly four digit characters. -/
def read4 : List Char → Option (Nat × List Char)
  | c1 :: c2 :: c3 :: c4 :: r =>
    match digit? c1, digit? c2, digit? c3, digit? c4 with
    | some d1, some d2, some d3, some d4 =>
      some (1000 * d1 + 100 * d2 + 10 * d3 + d4, r)
    | _, _, _, _ => none
  | _ => none

/-- Value of a run of digit characters, most significant first. -/
def digitsVal (ds : List Char) : Nat :=
  ds.foldl (fun a c => 10 * a + ((digit? c).getD 0)) 0

theorem digit?_digitChar {d : Nat} (h : d < 10) : digit? (digitChar d) = some d := by
  interval_cases d <;> decide

theorem read2_render2 {n : Nat} (h : n < 100) (r : List Char) :
    read2 (render2 n ++ r) = some (n, r) := by
  have h1 : n / 10 % 10 < 10 := Nat.mod_lt _ (by omega)
  have h2 : n % 10 < 10 := Nat.mod_lt _ (by omega)
  have h3 : n / 10 % 10 = n / 10 := Nat.mod_eq_of_lt (by omega)
  simp only [render2, List.cons_append, List.nil_append, read2,
    digit?_digitChar h1, digit?_digitChar h2]
  rw [h3]
  have e : 10 * (n / 10) + n % 10 = n := by omega
  rw [e]

theorem read4_render4 {n : Nat} (h : n < 10000) (r : List Char) :
    read4 (render4 n ++ r) = some (n, r) := by
  have h1 : n / 1000 % 10 < 10 := Nat.mod_lt _ (by omega)
  have h2 : n / 100 % 10 < 10 := Nat.mod_lt _ (by omega)
  have h3 : n / 10 % 10 < 10 := Nat.mod_lt _ (by omega)
  have h4 : n % 10 < 10 := Nat.mod_lt _ (by omega)
  simp only [render4, List.cons_append, List.nil_append, read4,
    digit?_digitChar h1, digit?_digitChar h2, digit?_digitChar h3, digit?_digitChar h4]
  have e1 : n / 1000 % 10 = n / 1000 := Nat.mod_eq_of_lt (by omega)
  rw [e1]
  have e : 1000 * (n / 1000) + 100 * (n / 100 % 10) + 10 * (n / 10 % 10) + n % 10 = n := by
    omega
  rw [e]

theorem digitsVal_renderDigits {k n : Nat} (h : n < 10 ^ k) :
    digitsVal (renderDigits k n) = n := by
  induction k generalizing n with
  | zero => simp at h; simp [h, renderDigits, digitsVal]
  | succ k ih =>
    have hd : n / 10 < 10 ^ k := by
      rw [Nat.div_lt_iff_lt_mul (by omega)]
      calc n < 10 ^ (k + 1) := h
        _ = 10 ^ k * 10 := by ring
    have hm : n % 10 < 10 := Nat.mod_lt _ (by omega)
    simp only [renderDigits, digitsVal, List.foldl_append, List.foldl_cons, List.foldl_nil]
    have : (renderDigits k (n / 10)).foldl (fun a c => 10 * a + ((digit? c).getD 0)) 0 = n / 10 :=
      ih hd
    rw [this, digit?_digitChar hm]
    simp
    omega

theorem mem_renderDigits_isDigit {k n : Nat} {c : Char}
    (h : c ∈ renderDigits k n) : c.isDigit = true := by
  induction k generalizing n with
  | zero => simp [renderDigits] at h
  | succ k ih =>
    simp only [renderDigits, List.mem_append, List.mem_singleton] at h
    rcases h with h | h
    · exact ih h
    · subst h
      have : n % 10 < 10 := Nat.mod_lt _ (by omega)
      have := digit?_digitChar this
      unfold digit? at this
      by_contra hc
      simp [hc] at this

/-! ## Fractional seconds: `RFC3339Nano` trims trailing zeros -/

/-- Remove trailing `'0'` characters (the `.999999999` layout element). -/
def dropTrailingZeros (l : List Char) : List Char :=
  (l.reverse.dropWhile (· == '0')).reverse

/-- The fractional-second part of the `RFC3339Nano` rendering: absent when
the nanoseconds are zero, otherwise a dot followed by the nine-digit
nanosecond field with trailing zeros removed. -/
def fracPart (nanos : Nat) : List Char :=
  if dropTrailingZeros (renderDigits 9 nanos) = [] then []
  else '.' :: dropTrailingZeros (renderDigits 9 nanos)

/-- Read an optional fractional second: a dot followed by one to nine
digits scaled to nanoseconds, or nothing. -/
def readFrac : List Char → Option (Nat × List Char)
  | [] => some (0, [])
  | c :: r =>
    if c = '.' then
      if 1 ≤ (r.takeWhile Char.isDigit).length ∧ (r.takeWhile Char.isDigit).length ≤ 9 then
        some (digitsVal (r.takeWhile Char.isDigit) *
                10 ^ (9 - (r.takeWhile Char.isDigit).length),
              r.drop (r.takeWhile Char.isDigit).length)
      else none
    else some (0, c :: r)

theorem dropTrailingZeros_append_zero (l : List Char) :
    dropTrailingZeros (l ++ ['0']) = dropTrailingZeros l := by
  simp [dropTrailingZeros, List.dropWhile]

theorem dropTrailingZeros_append_ne {c : Char} (hc : c ≠ '0') (l : List Char) :
    dropTrailingZeros (l ++ [c]) = l ++ [c] := by
  simp [dropTrailingZeros, List.dropWhile, hc]

theorem length_dropTrailingZeros_le (l : List Char) :
    (dropTrailingZeros l).length ≤ l.length := by
  simp only [dropTrailingZeros, List.length_reverse]
  calc (l.reverse.dropWhile (· == '0')).length ≤ l.reverse.length :=
        List.Sublist.length_le (List.dropWhile_sublist _)
    _ = l.length := List.length_reverse l

theorem mem_dropTrailingZeros {c : Char} {l : List Char}
    (h : c ∈ dropTrailingZeros l) : c ∈ l := by
  simp only [dropTrailingZeros, List.mem_reverse] at h
  have hsub : List.Sublist (l.reverse.dropWhile (· == '0')) l.reverse :=
    List.dropWhile_sublist (· == '0')
  have := hsub.mem h
  simpa using this

theorem digitsVal_append_zero (l : List Char) :
    digitsVal (l ++ ['0']) = 10 * digitsVal l := by
  simp [digitsVal, List.foldl_append]
  decide

theorem digitsVal_dropTrailingZeros (l : List Char) :
    digitsVal (dropTrailingZeros l) *
      10 ^ (l.length - (dropTrailingZeros l).length) = digitsVal l := by
  induction l using List.reverseRecOn with
  | nil => simp [dropTrailingZeros, digitsVal]
  | append_singleton l c ih =>
    by_cases hc : c = '0'
    · subst hc
      rw [dropTrailingZeros_append_zero, digitsVal_append_zero]
      have hlen := length_dropTrailingZeros_le l
      have : (l ++ ['0']).length - (dropTrailingZeros l).length =
          (l.length - (dropTrailingZeros l).length) + 1 := by
        simp only [List.length_append, List.length_singleton]
        omega
      rw [this, pow_succ]
      calc digitsVal (dropTrailingZeros l) *
            (10 ^ (l.length - (dropTrailingZeros l).length) * 10)
          = digitsVal (dropTrailingZeros l) *
            10 ^ (l.length - (dropTrailingZeros l).length) * 10 := by ring
        _ = digitsVal l * 10 := by rw [ih]
        _ = 10 * digitsVal l := by ring
    · rw [dropTrailingZeros_append_ne hc]
      simp

theorem digitsVal_all_zero {l : List Char} (h : ∀ c ∈ l, c = '0') :
    digitsVal l = 0 := by
  induction l with
  | nil => rfl
  | cons c l ih =>
    have hc : c = '0' := h c (by simp)
    have : digitsVal (c :: l) = digitsVal l := by
      simp [digitsVal, hc]
      rfl
    rw [this]
    exact ih fun x hx => h x (by simp [hx])

theorem dropTrailingZeros_eq_nil {l : List Char}
    (h : dropTrailingZeros l = []) : digitsVal l = 0 := by
  apply digitsVal_all_zero
  intro c hc
  have h' : l.reverse.dropWhile (· == '0') = [] := by
    have := congrArg List.reverse h
    simpa [dropTrailingZeros] using this
  have := List.dropWhile_eq_nil_iff.mp h'
  have hm : c ∈ l.reverse := by simpa using hc
  simpa using this c hm

theorem length_renderDigits (k n : Nat) : (renderDigits k n).length = k := by
  induction k generalizing n with
  | zero => rfl
  | succ k ih => simp [renderDigits, ih]

theorem takeWhile_append_of_all {p : Char → Bool} :
    ∀ {ds rest : List Char}, (∀ c ∈ ds, p c = true) →
      (∀ c, rest.head? = some c → p c = false) →
      (ds ++ rest).takeWhile p = ds := by
  intro ds
  induction ds with
  | nil =>
    intro rest _ hrest
    cases rest with
    | nil => rfl
    | cons c r =>
      simp only [List.nil_append, List.takeWhile]
      rw [hrest c rfl]
  | cons d ds ih =>
    intro rest hds hrest
    have hd : p d = true := hds d (by simp)
    simp only [List.cons_append, List.takeWhile_cons, hd, if_true]
    rw [ih (fun c hc => hds c (by simp [hc])) hrest]

theorem readFrac_fracPart {n : Nat} (hn : n < 1000000000) {z : List Char}
    (hz : ∀ c, z.head? = some c → c.isDigit = false ∧ c ≠ '.') :
    readFrac (fracPart n ++ z) = some (n, z) := by
  by_cases h0 : dropTrailingZeros (renderDigits 9 n) = []
  · have hn0 : n = 0 := by
      have h1 := dropTrailingZeros_eq_nil h0
      rwa [digitsVal_renderDigits (by simpa using hn)] at h1
    subst hn0
    have hfp : fracPart 0 = [] := by rw [fracPart, if_pos h0]
    rw [hfp, List.nil_append]
    cases z with
    | nil => rfl
    | cons c r =>
      have hc := hz c rfl
      simp only [readFrac, if_neg hc.2]
  · set ds := dropTrailingZeros (renderDigits 9 n) with hds
    have hfp : fracPart n = '.' :: ds := by
      rw [fracPart, if_neg h0]
    rw [hfp]
    have hdig : ∀ c ∈ ds, c.isDigit = true := fun c hc =>
      mem_renderDigits_isDigit (mem_dropTrailingZeros hc)
    have hlen9 : ds.length ≤ 9 := by
      have := length_dropTrailingZeros_le (renderDigits 9 n)
      rwa [length_renderDigits] at this
    have hlen1 : 1 ≤ ds.length := by
      cases hempty : ds with
      | nil => exact absurd hempty h0
      | cons _ _ => simp [hempty]
    have htw : (ds ++ z).takeWhile Char.isDigit = ds :=
      takeWhile_append_of_all hdig (fun c hc => (hz c hc).1)
    rw [List.cons_append]
    simp only [readFrac, if_pos, htw]
    rw [if_pos ⟨hlen1, hlen9⟩]
    have hval : digitsVal ds * 10 ^ (9 - ds.length) = n := by
      have := digitsVal_dropTrailingZeros (renderDigits 9 n)
      rw [length_renderDigits, ← hds] at this
      rw [this]
      exact digitsVal_renderDigits (by simpa using hn)
    rw [hval, List.drop_left]

/-! ## Zone offsets: `Z` or a signed hour-minute pair -/

/-- The zone-offset part of the RFC 3339 rendering (`Z07:00`):
`Z` for offset zero, otherwise a sign and a zero-padded `hh:mm`. -/
def offsetPart (off : Int) : List Char :=
  if off = 0 then ['Z']
  else
    (if off < 0 then '-' else '+') ::
      (render2 (off.natAbs / 60) ++ ':' :: render2 (off.natAbs % 60))

/-- Read a signed `hh:mm` zone offset body with Go's range checks. -/
def readOffsetHM (r : List Char) : Option (Nat × List Char) :=
  match read2 r with
  | none => none
  | some (hh, r1) =>
    match r1 with
    | ':' :: r2 =>
      match read2 r2 with
      | none => none
      | some (mm, r3) =>
        if hh < 24 ∧ mm < 60 then some (hh * 60 + mm, r3) else none
    | _ => none

/-- Read an RFC 3339 zone offset: `Z` or `±hh:mm`. -/
def readOffset : List Char → Option (Int × List Char)
  | 'Z' :: r => some (0, r)
  | '+' :: r =>
    match readOffsetHM r with
    | some (m, rest) => some ((m : Int), rest)
    | none => none
  | '-' :: r =>
    match readOffsetHM r with
    | some (m, rest) => some (-(m : Int), rest)
    | none => none
  | _ => none

theorem readOffsetHM_render {a : Nat} (ha : a < 24 * 60) (r : List Char) :
    readOffsetHM (render2 (a / 60) ++ ':' :: render2 (a % 60) ++ r) =
      some (a, r) := by
  have h60 : a / 60 < 100 := by omega
  have hmod : a % 60 < 100 := by
    have : a % 60 < 60 := Nat.mod_lt _ (by omega)
    omega
  simp only [List.append_assoc, List.cons_append]
  simp only [readOffsetHM, read2_render2 h60, read2_render2 hmod]
  rw [if_pos ⟨by omega, Nat.mod_lt _ (by omega)⟩]
  have : a / 60 * 60 + a % 60 = a := by omega
  rw [this]

theorem readOffset_offsetPart {off : Int} (h1 : -(24 * 60) < off)
    (h2 : off < 24 * 60) (r : List Char) :
    readOffset (offsetPart off ++ r) = some (off, r) := by
  by_cases h0 : off = 0
  · subst h0; rfl
  · have ha : off.natAbs < 24 * 60 := by omega
    by_cases hneg : off < 0
    · simp only [offsetPart, if_neg h0, if_pos hneg, List.cons_append]
      simp only [readOffset, readOffsetHM_render ha r]
      have : -(off.natAbs : Int) = off := by omega
      rw [this]
    · simp only [offsetPart, if_neg h0, if_neg hneg, List.cons_append]
      simp only [readOffset, readOffsetHM_render ha r]
      have : (off.natAbs : Int) = off := by omega
      rw [this]

/-! ## RFC 3339 rendering and parsing of a timestamp -/

/-- The `RFC3339Nano` rendering of a timestamp (Go `time.Time.MarshalJSON`
body, between the quotes): `YYYY-MM-DDTHH:MM:SS[.fff…](Z|±hh:mm)`. -/
def timeChars (t : Timestamp) : List Char :=
  render4 t.year.toNat ++ ('-' :: (render2 t.month ++ ('-' :: (render2 t.day ++
    ('T' :: (render2 t.hour ++ (':' :: (render2 t.minute ++ (':' :: (render2 t.second ++
      (fracPart t.nanos ++ offsetPart t.offsetMin)))))))))))

/-- Parse an RFC 3339 timestamp, with Go's range validation of the
calendar fields and full consumption of the input. -/
def timeParse (cs : List Char) : Option Timestamp :=
  match read4 cs with
  | none => none
  | some (y, r0) =>
    match r0 with
    | '-' :: r1 =>
      match read2 r1 with
      | none => none
      | some (mo, r2) =>
        match r2 with
        | '-' :: r3 =>
          match read2 r3 with
          | none => none
          | some (d, r4) =>
            match r4 with
            | 'T' :: r5 =>
              match read2 r5 with
              | none => none
              | some (h, r6) =>
                match r6 with
                | ':' :: r7 =>
                  match read2 r7 with
                  | none => none
                  | some (mi, r8) =>
                    match r8 with
                    | ':' :: r9 =>
                      match read2 r9 with
                      | none => none
                      | some (s, r10) =>
                        match readFrac r10 with
                        | none => none
                        | some (ns, r11) =>
                          match readOffset r11 with
                          | none => none
                          | some (off, r12) =>
                            if r12 = [] ∧ 1 ≤ mo ∧ mo ≤ 12 ∧ 1 ≤ d ∧
                                d ≤ daysInMonth (y : Int) mo ∧
                                h < 24 ∧ mi < 60 ∧ s < 60 then
                              some ⟨(y : Int), mo, d, h, mi, s, ns, off⟩
                            else none
                    | _ => none
                | _ => none
            | _ => none
        | _ => none
    | _ => none

theorem daysInMonth_le (y : Int) (m : Nat) : daysInMonth y m ≤ 31 := by
  unfold daysInMonth
  split <;> try omega
  split <;> omega

theorem offsetPart_head_not_digit {off : Int} :
    ∀ c, (offsetPart off).head? = some c → c.isDigit = false ∧ c ≠ '.' := by
  intro c hc
  unfold offsetPart at hc
  by_cases h0 : off = 0
  · rw [if_pos h0] at hc
    simp at hc
    subst hc
    exact ⟨rfl, by decide⟩
  · rw [if_neg h0] at hc
    by_cases hneg : off < 0
    · rw [if_pos hneg] at hc
      simp at hc
      subst hc
      exact ⟨rfl, by decide⟩
    · rw [if_neg hneg] at hc
      simp at hc
      subst hc
      exact ⟨rfl, by decide⟩

/-- Round trip of the RFC 3339 printer and parser on any valid timestamp. -/
theorem timeParse_timeChars {t : Timestamp} (h : t.Valid) :
    timeParse (timeChars t) = some t := by
  obtain ⟨y, mo, d, hh, mi, s, ns, off⟩ := t
  obtain ⟨hy0, hy1, hmo1, hmo2, hd1, hd2, hh1, hmi1, hs1, hns1, hoff1, hoff2⟩ := h
  simp only at hy0 hy1 hmo1 hmo2 hd1 hd2 hh1 hmi1 hs1 hns1 hoff1 hoff2
  have hyn : y.toNat < 10000 := by omega
  have hyc : ((y.toNat : Nat) : Int) = y := by omega
  simp only [timeChars, timeParse,
    read4_render4 hyn,
    read2_render2 (show mo < 100 by omega),
    read2_render2 (show d < 100 by have := daysInMonth_le y mo; omega),
    read2_render2 (show hh < 100 by omega),
    read2_render2 (show mi < 100 by omega),
    read2_render2 (show s < 100 by omega)]
  rw [show fracPart ns ++ offsetPart off =
        fracPart ns ++ (offsetPart off ++ []) by simp]
  rw [@readFrac_fracPart ns hns1 (offsetPart off ++ [])
        (by simpa using @offsetPart_head_not_digit off)]
  dsimp only
  rw [readOffset_offsetPart hoff1 hoff2]
  dsimp only
  rw [hyc]
  rw [if_pos ⟨rfl, hmo1, hmo2, hd1, hd2, hh1, hmi1, hs1⟩]

/-! ## JSON values

The value grammar `encoding/json` can produce and consume for this struct:
strings, objects, booleans and `null` (see the module comment for the
documented restriction to the constructs these records can contain). -/

mutual
inductive Json where
  | str (s : List Char)
  | bool (b : Bool)
  | null
  | obj (ms : Members)
inductive Members where
  | nil
  | cons (k : List Char) (v : Json) (rest : Members)
end

/-- Lower-case hexadecimal digit character, as `encoding/json` emits. -/
def hexDigitChar (d : Nat) : Char :=
  if d < 10 then digitChar d else Char.ofNat (87 + d)

/-- A `\(backslash)u` escape of a code point below 0x10000. -/
def uEscape (n : Nat) : List Char :=
  ['\\', 'u', hexDigitChar (n / 4096 % 16), hexDigitChar (n / 256 % 16),
   hexDigitChar (n / 16 % 16), hexDigitChar (n % 16)]

/-- Escaping of one character inside a JSON string, following Go's
`encoding/json` encoder with its default HTML escaping: quote and
backslash get a backslash escape, newline/carriage-return/tab their
two-character escapes, other control characters and `<`, `>`, `&`,
U+2028, U+2029 a `\(backslash)u` escape; everything else is emitted raw. -/
def escapeChar (c : Char) : List Char :=
  if c = '"' then ['\\', '"']
  else if c = '\\' then ['\\', '\\']
  else if c = '\n' then ['\\', 'n']
  else if c = '\r' then ['\\', 'r']
  else if c = '\t' then ['\\', 't']
  else if c.toNat < 32 ∨ c = '<' ∨ c = '>' ∨ c = '&' ∨
      c.toNat = 0x2028 ∨ c.toNat = 0x2029 then
    uEscape c.toNat
  else [c]

/-- Escape every character of a string body. -/
def escChars : List Char → List Char
  | [] => []
  | c :: cs => escapeChar c ++ escChars cs

/-- A quoted JSON string literal. -/
def renderQuoted (s : List Char) : List Char := '"' :: (escChars s ++ ['"'])

mutual
/-- Render a JSON value exactly as `json.Marshal` emits it (no added
whitespace, object members in order). -/
def renderJson : Json → List Char
  | .str s => renderQuoted s
  | .bool true => ['t', 'r', 'u', 'e']
  | .bool false => ['f', 'a', 'l', 's', 'e']
  | .null => ['n', 'u', 'l', 'l']
  | .obj ms => '\x7b' :: (renderMembers ms ++ ['\x7d'])
/-- Render the comma-separated member list of an object. -/
def renderMembers : Members → List Char
  | .nil => []
  | .cons k v .nil => renderQuoted k ++ ':' :: renderJson v
  | .cons k v (.cons k2 v2 rest) =>
    renderQuoted k ++ ':' :: renderJson v ++ ',' :: renderMembers (.cons k2 v2 rest)
end

/-! ## JSON parsing (the scanner of `encoding/json`, on this grammar) -/

/-- JSON insignificant whitespace. -/
def isWs (c : Char) : Bool := c = ' ' || c = '\t' || c = '\n' || c = '\r'

/-- Skip leading insignificant whitespace. -/
def skipWs : List Char → List Char
  | [] => []
  | c :: r => if isWs c then skipWs r else c :: r

/-- Value of a hexadecimal digit character (either case). -/
def hexVal (c : Char) : Option Nat :=
  if '0' ≤ c ∧ c ≤ '9' then some (c.toNat - 48)
  else if 'a' ≤ c ∧ c ≤ 'f' then some (c.toNat - 87)
  else if 'A' ≤ c ∧ c ≤ 'F' then some (c.toNat - 55)
  else none

/-- Decoding of a two-character escape (`\(backslash)n` and friends). -/
def unescapeSimple (e : Char) : Option Char :=
  if e = '"' then some '"'
  else if e = '\\' then some '\\'
  else if e = '/' then some '/'
  else if e = 'n' then some '\n'
  else if e = 'r' then some '\r'
  else if e = 't' then some '\t'
  else if e = 'b' then some (Char.ofNat 8)
  else if e = 'f' then some (Char.ofNat 12)
  else none

/-- Strip an expected literal character sequence from the input. -/
def stripLit : List Char → List Char → Option (List Char)
  | [], cs => some cs
  | l :: ls, c :: cs => if c = l then stripLit ls cs else none
  | _ :: _, [] => none

/-- Read four hexadecimal digits as a code unit. -/
def readHex4 : List Char → Option (Nat × List Char)
  | h1 :: h2 :: h3 :: h4 :: r =>
    match hexVal h1 with
    | none => none
    | some a =>
      match hexVal h2 with
      | none => none
      | some b =>
        match hexVal h3 with
        | none => none
        | some c =>
          match hexVal h4 with
          | none => none
          | some d => some (4096 * a + 256 * b + 16 * c + d, r)
  | _ => none

/-- Decode one character of a JSON string body: `c` is the next input
character, `r` the input after it. A backslash starts an escape (simple
or `\(backslash)u`, surrogate halves rejected), raw control characters
are rejected, and any other character stands for itself. -/
def unescapeHead (c : Char) (r : List Char) : Option (Char × List Char) :=
  if c = '\\' then
    match r with
    | [] => none
    | e :: r1 =>
      if e = 'u' then
        match readHex4 r1 with
        | some (n, r2) =>
          if 0xD800 ≤ n ∧ n < 0xE000 then none
          else some (Char.ofNat n, r2)
        | none => none
      else
        match unescapeSimple e with
        | some ch => some (ch, r1)
        | none => none
  else if c.toNat < 32 then none
  else some (c, r)

/-- Parse the body of a JSON string literal after the opening quote,
returning the decoded content and the input after the closing quote.
The fuel bounds the number of decoded characters. -/
def parseQuotedAux : Nat → List Char → Option (List Char × List Char)
  | 0, _ => none
  | _ + 1, [] => none
  | f + 1, c :: r =>
    if c = '"' then some ([], r)
    else
      match unescapeHead c r with
      | some (ch, r1) =>
        match parseQuotedAux f r1 with
        | some (s, rest) => some (ch :: s, rest)
        | none => none
      | none => none

mutual
/-- Parse one JSON value (of this grammar), skipping leading whitespace,
without consuming anything past the value. -/
def parseValueAux : Nat → List Char → Option (Json × List Char)
  | 0, _ => none
  | f + 1, cs =>
    match skipWs cs with
    | [] => none
    | c :: r =>
      if c = '"' then
        match parseQuotedAux f r with
        | some (s, rest) => some (.str s, rest)
        | none => none
      else if c = '\x7b' then
        match skipWs r with
        | [] => none
        | c2 :: r2 =>
          if c2 = '\x7d' then some (.obj .nil, r2)
          else
            match parseMemberListAux f r with
            | some (ms, rest) => some (.obj ms, rest)
            | none => none
      else if c = 't' then
        match stripLit ['r', 'u', 'e'] r with
        | some rest => some (.bool true, rest)
        | none => none
      else if c = 'f' then
        match stripLit ['a', 'l', 's', 'e'] r with
        | some rest => some (.bool false, rest)
        | none => none
      else if c = 'n' then
        match stripLit ['u', 'l', 'l'] r with
        | some rest => some (.null, rest)
        | none => none
      else none
/-- Parse a nonempty object member list up to and including the closing
brace. -/
def parseMemberListAux : Nat → List Char → Option (Members × List Char)
  | 0, _ => none
  | f + 1, cs =>
    match skipWs cs with
    | [] => none
    | c :: r =>
      if c = '"' then
        match parseQuotedAux f r with
        | some (k, r1) =>
          match skipWs r1 with
          | [] => none
          | c2 :: r2 =>
            if c2 = ':' then
              match parseValueAux f r2 with
              | some (v, r3) =>
                match skipWs r3 with
                | [] => none
                | c3 :: r4 =>
                  if c3 = ',' then
                    match parseMemberListAux f r4 with
                    | some (ms, r5) => some (.cons k v ms, r5)
                    | none => none
                  else if c3 = '\x7d' then some (.cons k v .nil, r4)
                  else none
              | none => none
            else none
        | none => none
      else none
end

/-- Parse a complete JSON document: one value, possibly surrounded by
whitespace, and nothing else — as `json.Unmarshal` requires. -/
def parseJson (cs : List Char) : Option Json :=
  match parseValueAux (2 * cs.length + 8) cs with
  | some (j, r) => if skipWs r = [] then some j else none
  | none => none

/-! ## The parser consumes a determined prefix: extension lemmas -/

theorem skipWs_cons_not_ws {c : Char} (h : isWs c = false) (r : List Char) :
    skipWs (c :: r) = c :: r := by
  simp [skipWs, h]

theorem skipWs_append_cons {cs : List Char} {c : Char} {r : List Char}
    (h : skipWs cs = c :: r) (t : List Char) :
    skipWs (cs ++ t) = c :: (r ++ t) := by
  induction cs with
  | nil => simp [skipWs] at h
  | cons d cs ih =>
    rw [List.cons_append]
    by_cases hd : isWs d
    · rw [skipWs, if_pos hd] at h ⊢
      exact ih h
    · rw [skipWs, if_neg hd] at h ⊢
      injection h with h1 h2
      subst h1; subst h2
      rfl

theorem stripLit_append {lit cs r : List Char}
    (h : stripLit lit cs = some r) (t : List Char) :
    stripLit lit (cs ++ t) = some (r ++ t) := by
  induction lit generalizing cs with
  | nil =>
    simp only [stripLit] at h
    injection h with h1
    subst h1
    rfl
  | cons l ls ih =>
    cases cs with
    | nil => simp [stripLit] at h
    | cons c cs' =>
      rw [List.cons_append]
      by_cases hc : c = l
      · rw [stripLit, if_pos hc] at h ⊢
        exact ih h
      · rw [stripLit, if_neg hc] at h
        simp at h

theorem readHex4_append {cs : List Char} {n : Nat} {r : List Char}
    (h : readHex4 cs = some (n, r)) (t : List Char) :
    readHex4 (cs ++ t) = some (n, r ++ t) := by
  match cs with
  | [] => simp [readHex4] at h
  | [h1] => simp [readHex4] at h
  | [h1, h2] => simp [readHex4] at h
  | [h1, h2, h3] => simp [readHex4] at h
  | h1 :: h2 :: h3 :: h4 :: r' =>
    simp only [List.cons_append]
    rw [readHex4] at h ⊢
    cases hv1 : hexVal h1 with
    | none => (try rw [hv1] at h); simp at h
    | some a =>
      (try rw [hv1] at h)
      dsimp only at h ⊢
      cases hv2 : hexVal h2 with
      | none => (try rw [hv2] at h); simp at h
      | some b =>
        (try rw [hv2] at h)
        dsimp only at h ⊢
        cases hv3 : hexVal h3 with
        | none => (try rw [hv3] at h); simp at h
        | some c =>
          (try rw [hv3] at h)
          dsimp only at h ⊢
          cases hv4 : hexVal h4 with
          | none => (try rw [hv4] at h); simp at h
          | some d =>
            (try rw [hv4] at h)
            dsimp only at h ⊢
            simp only [Option.some.injEq, Prod.mk.injEq] at h
            obtain ⟨rfl, rfl⟩ := h
            rfl

theorem unescapeHead_append {c : Char} {r r1 : List Char} {ch : Char}
    (h : unescapeHead c r = some (ch, r1)) (t : List Char) :
    unescapeHead c (r ++ t) = some (ch, r1 ++ t) := by
  unfold unescapeHead at h ⊢
  by_cases hb : c = '\\'
  · rw [if_pos hb] at h ⊢
    cases r with
    | nil => simp at h
    | cons e r' =>
      rw [List.cons_append]
      dsimp only at h ⊢
      by_cases hu : e = 'u'
      · rw [if_pos hu] at h ⊢
        cases hh : readHex4 r' with
        | none => (try rw [hh] at h); simp at h
        | some p =>
          obtain ⟨m, r2⟩ := p
          (try rw [hh] at h)
          rw [readHex4_append hh t]
          dsimp only at h ⊢
          by_cases hs : 0xD800 ≤ m ∧ m < 0xE000
          · rw [if_pos hs] at h; exact absurd h (by simp)
          · rw [if_neg hs] at h ⊢
            simp only [Option.some.injEq, Prod.mk.injEq] at h
            obtain ⟨rfl, rfl⟩ := h
            rfl
      · rw [if_neg hu] at h ⊢
        cases hus : unescapeSimple e with
        | none => (try rw [hus] at h); simp at h
        | some ch' =>
          (try rw [hus] at h)
          dsimp only at h ⊢
          simp only [Option.some.injEq, Prod.mk.injEq] at h
          obtain ⟨rfl, rfl⟩ := h
          rfl
  · rw [if_neg hb] at h ⊢
    by_cases h32 : c.toNat < 32
    · rw [if_pos h32] at h; exact absurd h (by simp)
    · rw [if_neg h32] at h ⊢
      simp only [Option.some.injEq, Prod.mk.injEq] at h
      obtain ⟨rfl, rfl⟩ := h
      rfl

theorem parseQuotedAux_append :
    ∀ {f : Nat} {cs s r : List Char}, parseQuotedAux f cs = some (s, r) →
      ∀ {g : Nat}, f ≤ g → ∀ t, parseQuotedAux g (cs ++ t) = some (s, r ++ t) := by
  intro f
  induction f with
  | zero => intro cs s r h; simp [parseQuotedAux] at h
  | succ f ih =>
    intro cs s r h g hg t
    obtain ⟨g', rfl⟩ : ∃ g', g = g' + 1 := ⟨g - 1, by omega⟩
    cases cs with
    | nil => simp [parseQuotedAux] at h
    | cons c r0 =>
      rw [List.cons_append]
      simp only [parseQuotedAux] at h ⊢
      by_cases hq : c = '"'
      · rw [if_pos hq] at h ⊢
        simp only [Option.some.injEq, Prod.mk.injEq] at h
        obtain ⟨rfl, rfl⟩ := h
        rfl
      · rw [if_neg hq] at h ⊢
        cases hu : unescapeHead c r0 with
        | none => rw [hu] at h; simp at h
        | some p =>
          obtain ⟨ch, r1⟩ := p
          rw [hu] at h
          rw [unescapeHead_append hu t]
          dsimp only at h ⊢
          cases hp : parseQuotedAux f r1 with
          | none => rw [hp] at h; simp at h
          | some p2 =>
            obtain ⟨s', rest⟩ := p2
            rw [hp] at h
            rw [ih hp (show f ≤ g' by omega) t]
            dsimp only at h ⊢
            simp only [Option.some.injEq, Prod.mk.injEq] at h
            obtain ⟨rfl, rfl⟩ := h
            rfl

/-- Joint extension property of the value and member-list parsers: a
successful parse is unaffected by appending further input (with any
amount of additional fuel). -/
theorem parseAux_append : ∀ f : Nat,
    (∀ {cs : List Char} {j : Json} {r : List Char}, parseValueAux f cs = some (j, r) →
      ∀ {g : Nat}, f ≤ g → ∀ t, parseValueAux g (cs ++ t) = some (j, r ++ t)) ∧
    (∀ {cs : List Char} {ms : Members} {r : List Char},
      parseMemberListAux f cs = some (ms, r) →
      ∀ {g : Nat}, f ≤ g → ∀ t, parseMemberListAux g (cs ++ t) = some (ms, r ++ t)) := by
  intro f
  induction f with
  | zero =>
    constructor
    · intro cs j r h; simp [parseValueAux] at h
    · intro cs ms r h; simp [parseMemberListAux] at h
  | succ f ih =>
    obtain ⟨ihv, ihm⟩ := ih
    constructor
    · intro cs j r h g hg t
      obtain ⟨g', rfl⟩ : ∃ g', g = g' + 1 := ⟨g - 1, by omega⟩
      simp only [parseValueAux] at h
      cases hsk : skipWs cs with
      | nil => (try rw [hsk] at h); simp at h
      | cons c r0 =>
        (try rw [hsk] at h)
        simp only [parseValueAux, skipWs_append_cons hsk t]
        dsimp only at h ⊢
        by_cases hq : c = '"'
        · rw [if_pos hq] at h ⊢
          cases hp : parseQuotedAux f r0 with
          | none => (try rw [hp] at h); simp at h
          | some p =>
            obtain ⟨s, rest⟩ := p
            (try rw [hp] at h)
            rw [parseQuotedAux_append hp (show f ≤ g' by omega) t]
            dsimp only at h ⊢
            simp only [Option.some.injEq, Prod.mk.injEq] at h
            obtain ⟨rfl, rfl⟩ := h
            rfl
        · rw [if_neg hq] at h ⊢
          by_cases hbr : c = '\x7b'
          · rw [if_pos hbr] at h ⊢
            cases hsk3 : skipWs r0 with
            | nil => (try rw [hsk3] at h); simp at h
            | cons c2 r2 =>
              (try rw [hsk3] at h)
              rw [skipWs_append_cons hsk3 t]
              dsimp only at h ⊢
              by_cases hc2 : c2 = '\x7d'
              · rw [if_pos hc2] at h ⊢
                simp only [Option.some.injEq, Prod.mk.injEq] at h
                obtain ⟨rfl, rfl⟩ := h
                rfl
              · rw [if_neg hc2] at h ⊢
                cases hm : parseMemberListAux f r0 with
                | none => (try rw [hm] at h); simp at h
                | some p =>
                  obtain ⟨ms, rest⟩ := p
                  (try rw [hm] at h)
                  rw [ihm hm (show f ≤ g' by omega) t]
                  dsimp only at h ⊢
                  simp only [Option.some.injEq, Prod.mk.injEq] at h
                  obtain ⟨rfl, rfl⟩ := h
                  rfl
          · rw [if_neg hbr] at h ⊢
            by_cases htc : c = 't'
            · rw [if_pos htc] at h ⊢
              cases hsl : stripLit ['r', 'u', 'e'] r0 with
              | none => (try rw [hsl] at h); simp at h
              | some rest =>
                (try rw [hsl] at h)
                rw [stripLit_append hsl t]
                dsimp only at h ⊢
                simp only [Option.some.injEq, Prod.mk.injEq] at h
                obtain ⟨rfl, rfl⟩ := h
                rfl
            · rw [if_neg htc] at h ⊢
              by_cases hfc : c = 'f'
              · rw [if_pos hfc] at h ⊢
                cases hsl : stripLit ['a', 'l', 's', 'e'] r0 with
                | none => (try rw [hsl] at h); simp at h
                | some rest =>
                  (try rw [hsl] at h)
                  rw [stripLit_append hsl t]
                  dsimp only at h ⊢
                  simp only [Option.some.injEq, Prod.mk.injEq] at h
                  obtain ⟨rfl, rfl⟩ := h
                  rfl
              · rw [if_neg hfc] at h ⊢
                by_cases hnc : c = 'n'
                · rw [if_pos hnc] at h ⊢
                  cases hsl : stripLit ['u', 'l', 'l'] r0 with
                  | none => (try rw [hsl] at h); simp at h
                  | some rest =>
                    (try rw [hsl] at h)
                    rw [stripLit_append hsl t]
                    dsimp only at h ⊢
                    simp only [Option.some.injEq, Prod.mk.injEq] at h
                    obtain ⟨rfl, rfl⟩ := h
                    rfl
                · rw [if_neg hnc] at h
                  simp at h
    · intro cs ms r h g hg t
      obtain ⟨g', rfl⟩ : ∃ g', g = g' + 1 := ⟨g - 1, by omega⟩
      simp only [parseMemberListAux] at h
      cases hsk : skipWs cs with
      | nil => (try rw [hsk] at h); simp at h
      | cons c r0 =>
        (try rw [hsk] at h)
        simp only [parseMemberListAux, skipWs_append_cons hsk t]
        dsimp only at h ⊢
        by_cases hq : c = '"'
        · rw [if_pos hq] at h ⊢
          cases hk : parseQuotedAux f r0 with
          | none => (try rw [hk] at h); simp at h
          | some p =>
            obtain ⟨k, r1⟩ := p
            (try rw [hk] at h)
            rw [parseQuotedAux_append hk (show f ≤ g' by omega) t]
            dsimp only at h ⊢
            cases hsk2 : skipWs r1 with
            | nil => (try rw [hsk2] at h); simp at h
            | cons c2 r2 =>
              (try rw [hsk2] at h)
              rw [skipWs_append_cons hsk2 t]
              dsimp only at h ⊢
              by_cases hc2 : c2 = ':'
              · rw [if_pos hc2] at h ⊢
                cases hv : parseValueAux f r2 with
                | none => (try rw [hv] at h); simp at h
                | some p2 =>
                  obtain ⟨v, r3⟩ := p2
                  (try rw [hv] at h)
                  rw [ihv hv (show f ≤ g' by omega) t]
                  dsimp only at h ⊢
                  cases hsk3 : skipWs r3 with
                  | nil => (try rw [hsk3] at h); simp at h
                  | cons c3 r4 =>
                    (try rw [hsk3] at h)
                    rw [skipWs_append_cons hsk3 t]
                    dsimp only at h ⊢
                    by_cases hcm : c3 = ','
                    · rw [if_pos hcm] at h ⊢
                      cases hm : parseMemberListAux f r4 with
                      | none => (try rw [hm] at h); simp at h
                      | some p3 =>
                        obtain ⟨ms', r5⟩ := p3
                        (try rw [hm] at h)
                        rw [ihm hm (show f ≤ g' by omega) t]
                        dsimp only at h ⊢
                        simp only [Option.some.injEq, Prod.mk.injEq] at h
                        obtain ⟨rfl, rfl⟩ := h
                        rfl
                    · rw [if_neg hcm] at h ⊢
                      by_cases hbr : c3 = '\x7d'
                      · rw [if_pos hbr] at h ⊢
                        simp only [Option.some.injEq, Prod.mk.injEq] at h
                        obtain ⟨rfl, rfl⟩ := h
                        rfl
                      · rw [if_neg hbr] at h
                        simp at h
              · rw [if_neg hc2] at h
                simp at h
        · rw [if_neg hq] at h
          simp at h

/-! ## The parser inverts the renderer -/

theorem stripLit_self : ∀ (lit t : List Char), stripLit lit (lit ++ t) = some t := by
  intro lit
  induction lit with
  | nil => intro t; rfl
  | cons l ls ih =>
    intro t
    rw [List.cons_append, stripLit, if_pos rfl]
    exact ih t

theorem hexVal_hexDigitChar {d : Nat} (h : d < 16) :
    hexVal (hexDigitChar d) = some d := by
  interval_cases d <;> decide

theorem readHex4_uEscapeTail {n : Nat} (hn : n < 65536) (rest : List Char) :
    readHex4 ([hexDigitChar (n / 4096 % 16), hexDigitChar (n / 256 % 16),
      hexDigitChar (n / 16 % 16), hexDigitChar (n % 16)] ++ rest) = some (n, rest) := by
  have h1 : n / 4096 % 16 < 16 := Nat.mod_lt _ (by omega)
  have h2 : n / 256 % 16 < 16 := Nat.mod_lt _ (by omega)
  have h3 : n / 16 % 16 < 16 := Nat.mod_lt _ (by omega)
  have h4 : n % 16 < 16 := Nat.mod_lt _ (by omega)
  simp only [List.cons_append, List.nil_append, readHex4,
    hexVal_hexDigitChar h1, hexVal_hexDigitChar h2,
    hexVal_hexDigitChar h3, hexVal_hexDigitChar h4]
  have e : 4096 * (n / 4096 % 16) + 256 * (n / 256 % 16) + 16 * (n / 16 % 16) + n % 16 = n := by
    omega
  rw [e]

theorem unescapeHead_escapeChar (c : Char) (rest : List Char) :
    ∃ e r, escapeChar c ++ rest = e :: r ∧ e ≠ '"' ∧
      unescapeHead e r = some (c, rest) := by
  by_cases hq : c = '"'
  · subst hq; exact ⟨'\\', '"' :: rest, rfl, by decide, rfl⟩
  · by_cases hbs : c = '\\'
    · subst hbs; exact ⟨'\\', '\\' :: rest, rfl, by decide, rfl⟩
    · by_cases hn : c = '\n'
      · subst hn; exact ⟨'\\', 'n' :: rest, rfl, by decide, rfl⟩
      · by_cases hr : c = '\r'
        · subst hr; exact ⟨'\\', 'r' :: rest, rfl, by decide, rfl⟩
        · by_cases htb : c = '\t'
          · subst htb; exact ⟨'\\', 't' :: rest, rfl, by decide, rfl⟩
          · by_cases hu : c.toNat < 32 ∨ c = '<' ∨ c = '>' ∨ c = '&' ∨
                c.toNat = 0x2028 ∨ c.toNat = 0x2029
            · have hesc : escapeChar c = uEscape c.toNat := by
                unfold escapeChar
                rw [if_neg hq, if_neg hbs, if_neg hn, if_neg hr, if_neg htb, if_pos hu]
              have hlt : c.toNat < 65536 := by
                rcases hu with h | h | h | h | h | h
                · omega
                · subst h; decide
                · subst h; decide
                · subst h; decide
                · omega
                · omega
              have hnotsur : ¬(0xD800 ≤ c.toNat ∧ c.toNat < 0xE000) := by
                rcases hu with h | h | h | h | h | h
                · omega
                · subst h; decide
                · subst h; decide
                · subst h; decide
                · omega
                · omega
              refine ⟨'\\', 'u' :: ([hexDigitChar (c.toNat / 4096 % 16),
                hexDigitChar (c.toNat / 256 % 16), hexDigitChar (c.toNat / 16 % 16),
                hexDigitChar (c.toNat % 16)] ++ rest), ?_, by decide, ?_⟩
              · rw [hesc]; simp [uEscape]
              · unfold unescapeHead
                rw [if_pos rfl]
                dsimp only
                rw [if_pos rfl, readHex4_uEscapeTail hlt rest]
                dsimp only
                rw [if_neg hnotsur]
                congr 1
                rw [Prod.mk.injEq]
                exact ⟨Char.ofNat_toNat c, rfl⟩
            · have hesc : escapeChar c = [c] := by
                unfold escapeChar
                rw [if_neg hq, if_neg hbs, if_neg hn, if_neg hr, if_neg htb, if_neg hu]
              refine ⟨c, rest, by rw [hesc]; rfl, hq, ?_⟩
              unfold unescapeHead
              rw [if_neg hbs, if_neg (fun h32 => hu (Or.inl h32))]

theorem parseQuotedAux_escChars :
    ∀ (s : List Char) {f : Nat}, s.length + 1 ≤ f → ∀ rest,
      parseQuotedAux f (escChars s ++ ('"' :: rest)) = some (s, rest) := by
  intro s
  induction s with
  | nil =>
    intro f hf rest
    obtain ⟨f', rfl⟩ : ∃ f', f = f' + 1 := ⟨f - 1, by omega⟩
    rw [escChars, List.nil_append, parseQuotedAux, if_pos rfl]
  | cons c s' ih =>
    intro f hf rest
    obtain ⟨f', rfl⟩ : ∃ f', f = f' + 1 := ⟨f - 1, by omega⟩
    rw [escChars, List.append_assoc]
    obtain ⟨e, r, heq, hne, hdec⟩ := unescapeHead_escapeChar c (escChars s' ++ ('"' :: rest))
    rw [heq, parseQuotedAux, if_neg hne, hdec]
    dsimp only
    rw [ih (show s'.length + 1 ≤ f' by simpa using hf) rest]

mutual
/-- Fuel sufficient to parse the rendering of a value. -/
def jsonFuel : Json → Nat
  | .str s => s.length + 2
  | .bool _ => 1
  | .null => 1
  | .obj ms => membersFuel ms + 2
/-- Fuel sufficient to parse the rendering of a member list. -/
def membersFuel : Members → Nat
  | .nil => 1
  | .cons k v rest => k.length + jsonFuel v + membersFuel rest + 4
end

/-- Joint round trip of the renderer and the parser, at any sufficient
fuel: parsing the rendering of a value yields the value back and consumes
exactly its rendering. -/
theorem parse_render : ∀ f : Nat,
    (∀ (j : Json) (t : List Char), jsonFuel j ≤ f →
      parseValueAux f (renderJson j ++ t) = some (j, t)) ∧
    (∀ (k : List Char) (v : Json) (ms : Members) (t : List Char),
      membersFuel (.cons k v ms) ≤ f →
      parseMemberListAux f (renderMembers (.cons k v ms) ++ ('\x7d' :: t)) =
        some (.cons k v ms, t)) := by
  intro f
  induction f with
  | zero =>
    constructor
    · intro j t hf
      exfalso
      cases j <;> simp [jsonFuel, membersFuel] at hf
    · intro k v ms t hf
      exfalso
      simp [membersFuel] at hf
  | succ f ih =>
    obtain ⟨ihv, ihm⟩ := ih
    constructor
    · intro j t hf
      cases j with
      | str s =>
        rw [renderJson, renderQuoted]
        rw [show ('"' :: (escChars s ++ ['"'])) ++ t =
          '"' :: (escChars s ++ ('"' :: t)) by simp]
        rw [parseValueAux, skipWs_cons_not_ws (by decide)]
        dsimp only
        rw [if_pos rfl]
        rw [parseQuotedAux_escChars s (show s.length + 1 ≤ f by
          simp [jsonFuel] at hf; omega) t]
      | bool b =>
        cases b with
        | true =>
          rw [renderJson]
          rw [show (['t', 'r', 'u', 'e'] : List Char) ++ t =
            't' :: (['r', 'u', 'e'] ++ t) from rfl]
          rw [parseValueAux, skipWs_cons_not_ws (by decide)]
          dsimp only
          rw [if_neg (by decide), if_neg (by decide), if_pos rfl, stripLit_self]
        | false =>
          rw [renderJson]
          rw [show (['f', 'a', 'l', 's', 'e'] : List Char) ++ t =
            'f' :: (['a', 'l', 's', 'e'] ++ t) from rfl]
          rw [parseValueAux, skipWs_cons_not_ws (by decide)]
          dsimp only
          rw [if_neg (by decide), if_neg (by decide), if_neg (by decide),
            if_pos rfl, stripLit_self]
      | null =>
        rw [renderJson]
        rw [show (['n', 'u', 'l', 'l'] : List Char) ++ t =
          'n' :: (['u', 'l', 'l'] ++ t) from rfl]
        rw [parseValueAux, skipWs_cons_not_ws (by decide)]
        dsimp only
        rw [if_neg (by decide), if_neg (by decide), if_neg (by decide),
          if_neg (by decide), if_pos rfl, stripLit_self]
      | obj ms =>
        rw [renderJson]
        rw [show ('\x7b' :: (renderMembers ms ++ ['\x7d'])) ++ t =
          '\x7b' :: (renderMembers ms ++ ('\x7d' :: t)) by simp]
        rw [parseValueAux, skipWs_cons_not_ws (by decide)]
        dsimp only
        rw [if_neg (by decide), if_pos rfl]
        cases ms with
        | nil =>
          rw [renderMembers, List.nil_append, skipWs_cons_not_ws (by decide)]
          dsimp only
          rw [if_pos rfl]
        | cons k v ms' =>
          have hf' : membersFuel (.cons k v ms') ≤ f := by
            simp [jsonFuel] at hf; omega
          have hhead : ∃ tail, renderMembers (.cons k v ms') = '"' :: tail := by
            cases ms' with
            | nil => exact ⟨_, rfl⟩
            | cons k2 v2 ms2 => exact ⟨_, rfl⟩
          obtain ⟨tail, htail⟩ := hhead
          rw [htail, List.cons_append, skipWs_cons_not_ws (by decide)]
          dsimp only
          rw [if_neg (by decide)]
          rw [← List.cons_append, ← htail, ihm k v ms' t hf']
    · intro k v ms t hf
      rw [membersFuel] at hf
      cases ms with
      | nil =>
        rw [renderMembers, renderQuoted]
        rw [show ('"' :: (escChars k ++ ['"']) ++ ':' :: renderJson v) ++ ('\x7d' :: t) =
          '"' :: (escChars k ++ ('"' :: (':' :: (renderJson v ++ ('\x7d' :: t))))) by
            simp]
        rw [parseMemberListAux, skipWs_cons_not_ws (by decide)]
        dsimp only
        rw [if_pos rfl]
        rw [parseQuotedAux_escChars k (show k.length + 1 ≤ f by
          simp [jsonFuel, membersFuel] at hf; omega)]
        dsimp only
        rw [skipWs_cons_not_ws (by decide)]
        dsimp only
        rw [if_pos rfl]
        rw [ihv v ('\x7d' :: t) (show jsonFuel v ≤ f by
          simp [jsonFuel, membersFuel] at hf; omega)]
        dsimp only
        rw [skipWs_cons_not_ws (by decide)]
        dsimp only
        rw [if_neg (by decide), if_pos rfl]
      | cons k2 v2 ms2 =>
        rw [renderMembers, renderQuoted]
        rw [show ('"' :: (escChars k ++ ['"']) ++ ':' :: renderJson v ++
            ',' :: renderMembers (.cons k2 v2 ms2)) ++ ('\x7d' :: t) =
          '"' :: (escChars k ++ ('"' :: (':' :: (renderJson v ++
            (',' :: (renderMembers (.cons k2 v2 ms2) ++ ('\x7d' :: t))))))) by
            simp]
        rw [parseMemberListAux, skipWs_cons_not_ws (by decide)]
        dsimp only
        rw [if_pos rfl]
        rw [parseQuotedAux_escChars k (show k.length + 1 ≤ f by
          simp [jsonFuel, membersFuel] at hf; omega)]
        dsimp only
        rw [skipWs_cons_not_ws (by decide)]
        dsimp only
        rw [if_pos rfl]
        rw [ihv v (',' :: (renderMembers (.cons k2 v2 ms2) ++ ('\x7d' :: t)))
          (show jsonFuel v ≤ f by simp [jsonFuel, membersFuel] at hf; omega)]
        dsimp only
        rw [skipWs_cons_not_ws (by decide)]
        dsimp only
        rw [if_pos rfl]
        rw [ihm k2 v2 ms2 t (show membersFuel (.cons k2 v2 ms2) ≤ f by
          simp [jsonFuel, membersFuel] at hf ⊢; omega)]

theorem escapeChar_length_pos (c : Char) : 1 ≤ (escapeChar c).length := by
  unfold escapeChar
  repeat' split
  all_goals simp [uEscape]

theorem escChars_length : ∀ s : List Char, s.length ≤ (escChars s).length := by
  intro s
  induction s with
  | nil => simp [escChars]
  | cons c s' ih =>
    have := escapeChar_length_pos c
    simp only [escChars, List.length_append, List.length_cons]
    omega

mutual
theorem jsonFuel_le_render : ∀ j : Json, jsonFuel j ≤ 2 * (renderJson j).length + 2
  | .str s => by
    have h := escChars_length s
    simp only [jsonFuel, renderJson, renderQuoted, List.length_cons, List.length_append]
    omega
  | .bool b => by cases b <;> simp [jsonFuel, renderJson]
  | .null => by simp [jsonFuel, renderJson]
  | .obj ms => by
    have h := membersFuel_le_render ms
    simp only [jsonFuel, renderJson, List.length_cons, List.length_append]
    omega
theorem membersFuel_le_render : ∀ ms : Members, membersFuel ms ≤ 2 * (renderMembers ms).length + 4
  | .nil => by simp [membersFuel, renderMembers]
  | .cons k v .nil => by
    have h1 := jsonFuel_le_render v
    have h2 := escChars_length k
    simp only [membersFuel, renderMembers, renderQuoted, List.length_append,
      List.length_cons]
    simp only [List.length_nil]
    omega
  | .cons k v (.cons k2 v2 rest) => by
    have h1 := jsonFuel_le_render v
    have h3 := membersFuel_le_render (.cons k2 v2 rest)
    have h2 := escChars_length k
    simp only [membersFuel, renderMembers, renderQuoted, List.length_append,
      List.length_cons] at h3 ⊢
    simp only [List.length_nil] at h3 ⊢
    omega
end

/-- Parsing the exact rendering of a value succeeds and yields it back. -/
theorem parseJson_render (j : Json) : parseJson (renderJson j) = some j := by
  have hb := jsonFuel_le_render j
  have h := (parse_render (2 * (renderJson j).length + 8)).1 j [] (by omega)
  rw [List.append_nil] at h
  rw [parseJson, h]
  rfl

/-- No strict prefix of the rendering of a value parses as a document:
the parse of the full rendering consumes everything, and a successful
parse of a prefix would extend to a successful parse of the whole input
with a nonempty remainder, contradicting determinism. -/
theorem parseJson_take_render {j : Json} {n : Nat}
    (hn : n < (renderJson j).length) :
    parseJson ((renderJson j).take n) = none := by
  have hlen : ((renderJson j).take n).length = n := by
    rw [List.length_take]
    omega
  cases hp : parseValueAux (2 * ((renderJson j).take n).length + 8)
      ((renderJson j).take n) with
  | none => rw [parseJson, hp]
  | some p =>
    exfalso
    obtain ⟨j', r'⟩ := p
    have hext := (parseAux_append (2 * ((renderJson j).take n).length + 8)).1 hp
      (show 2 * ((renderJson j).take n).length + 8 ≤ 2 * (renderJson j).length + 8 by
        rw [hlen]; omega)
      ((renderJson j).drop n)
    rw [List.take_append_drop] at hext
    have hb := jsonFuel_le_render j
    have hfull := (parse_render (2 * (renderJson j).length + 8)).1 j [] (by omega)
    rw [List.append_nil] at hfull
    rw [hfull] at hext
    simp only [Option.some.injEq, Prod.mk.injEq] at hext
    have hdrop : (renderJson j).drop n = [] := (List.append_eq_nil.mp hext.2.symm).2
    have := List.drop_eq_nil_iff.mp hdrop
    omega

/-! ## The `models` package: `LogLevel`, `LogEntry`, `ToJson`, `FromJson` -/

/-- Go: `type LogLevel string` — a named string type with no invariant. -/
abbrev LogLevel := String

/-- The five declared level constants of `internal/models/log.go`. -/
def DEBUG : LogLevel := "DEBUG"

/-- See `DEBUG`. -/
def INFO : LogLevel := "INFO"

/-- See `DEBUG`. -/
def WARN : LogLevel := "WARN"

/-- See `DEBUG`. -/
def ERROR : LogLevel := "ERROR"

/-- See `DEBUG`. -/
def FATAL : LogLevel := "FATAL"

/-- The `LogEntry` struct: `timestamp`, `application`, `level`, `message`,
with the JSON tags of the same names. -/
structure LogEntry where
  timestamp : Timestamp
  application : String
  level : LogLevel
  message : String
deriving DecidableEq, Repr

/-- The one failure `json.Marshal` can hit on this struct:
`time.Time.MarshalJSON` rejects years outside [0,9999]. -/
inductive MarshalError
  | yearOutOfRange
deriving DecidableEq, Repr

/-- An `error` result of `json.Unmarshal` (syntax error, type mismatch,
or unparsable timestamp — all are the spec's `MalformedRecord`). -/
inductive UnmarshalError
  | malformed
deriving DecidableEq, Repr

instance {ε α : Type} [DecidableEq ε] [DecidableEq α] : DecidableEq (Except ε α) :=
  fun a b =>
  match a, b with
  | .error e1, .error e2 =>
    if h : e1 = e2 then .isTrue (by rw [h]) else .isFalse (fun hc => h (by injection hc))
  | .error _, .ok _ => .isFalse (fun hc => Except.noConfusion hc)
  | .ok _, .error _ => .isFalse (fun hc => Except.noConfusion hc)
  | .ok x, .ok y =>
    if h : x = y then .isTrue (by rw [h]) else .isFalse (fun hc => h (by injection hc))

/-- The zero `LogEntry` that `json.Unmarshal` starts from: zero time and
empty strings. -/
def zeroEntry : LogEntry := ⟨zeroTimestamp, "", "", ""⟩

/-- Go matches JSON keys to struct tags case-insensitively (ASCII fold
suffices for these tags). -/
def keyEqFold (a b : List Char) : Bool :=
  a.map Char.toLower == b.map Char.toLower

/-- Assign one object member into the entry being decoded, following
`json.Unmarshal` on this struct: a matching key decodes into its field
(strings from JSON strings, the timestamp through RFC 3339 parsing),
`null` leaves the field unchanged, a type mismatch is an error, and an
unknown key is ignored. -/
def setField (e : LogEntry) (k : List Char) (v : Json) : Except UnmarshalError LogEntry :=
  if keyEqFold k ("timestamp".data) then
    match v with
    | .null => .ok e
    | .str s =>
      match timeParse s with
      | some t => .ok { e with timestamp := t }
      | none => .error .malformed
    | _ => .error .malformed
  else if keyEqFold k ("application".data) then
    match v with
    | .null => .ok e
    | .str s => .ok { e with application := String.mk s }
    | _ => .error .malformed
  else if keyEqFold k ("level".data) then
    match v with
    | .null => .ok e
    | .str s => .ok { e with level := String.mk s }
    | _ => .error .malformed
  else if keyEqFold k ("message".data) then
    match v with
    | .null => .ok e
    | .str s => .ok { e with message := String.mk s }
    | _ => .error .malformed
  else .ok e

/-- Decode the member list in order (later duplicates overwrite). -/
def decodeMembers : Members → LogEntry → Except UnmarshalError LogEntry
  | .nil, e => .ok e
  | .cons k v ms, e =>
    match setField e k v with
    | .ok e2 => decodeMembers ms e2
    | .error err => .error err

/-- Decode a JSON value into a `LogEntry`: an object is decoded member by
member starting from the zero entry, a top-level `null` is a no-op, and
any other value is a type mismatch. -/
def decodeLogEntry : Json → Except UnmarshalError LogEntry
  | .obj ms => decodeMembers ms zeroEntry
  | .null => .ok zeroEntry
  | _ => .error .malformed

/-- `FromJson` of `internal/models/log.go`: `json.Unmarshal` into a fresh
`LogEntry`. -/
def FromJson (data : String) : Except UnmarshalError LogEntry :=
  match parseJson data.data with
  | some j => decodeLogEntry j
  | none => .error .malformed

/-- The JSON value `json.Marshal` builds for a `LogEntry`: an object with
the four tagged fields in struct order, the timestamp rendered in
`RFC3339Nano`. -/
def entryJsonOf (ts : Timestamp) (app lvl msg : String) : Json :=
  .obj (.cons ("timestamp".data) (.str (timeChars ts))
    (.cons ("application".data) (.str app.data)
      (.cons ("level".data) (.str lvl.data)
        (.cons ("message".data) (.str msg.data) .nil))))

/-- `ToJson` of `internal/models/log.go`: `json.Marshal` of the struct,
which fails exactly when `time.Time.MarshalJSON` rejects the year. -/
def LogEntry.ToJson (e : LogEntry) : Except MarshalError String :=
  if e.timestamp.year < 0 ∨ 10000 ≤ e.timestamp.year then .error .yearOutOfRange
  else .ok (String.mk (renderJson (entryJsonOf e.timestamp e.application e.level e.message)))

/-- Decoding the JSON value built for an entry recovers the entry
(for a valid timestamp) — for any `level` string whatsoever. -/
theorem decode_entryJsonOf {ts : Timestamp} (h : ts.Valid) (app lvl msg : String) :
    decodeLogEntry (entryJsonOf ts app lvl msg) = .ok ⟨ts, app, lvl, msg⟩ := by
  have k1 : keyEqFold ("timestamp".data) ("timestamp".data) = true := by decide
  have k2 : keyEqFold ("application".data) ("timestamp".data) = false := by decide
  have k3 : keyEqFold ("application".data) ("application".data) = true := by decide
  have k4 : keyEqFold ("level".data) ("timestamp".data) = false := by decide
  have k5 : keyEqFold ("level".data) ("application".data) = false := by decide
  have k6 : keyEqFold ("level".data) ("level".data) = true := by decide
  have k7 : keyEqFold ("message".data) ("timestamp".data) = false := by decide
  have k8 : keyEqFold ("message".data) ("application".data) = false := by decide
  have k9 : keyEqFold ("message".data) ("level".data) = false := by decide
  have k10 : keyEqFold ("message".data) ("message".data) = true := by decide
  simp only [entryJsonOf, decodeLogEntry, decodeMembers, setField,
    k1, k2, k3, k4, k5, k6, k7, k8, k9, k10,
    timeParse_timeChars h, if_true, if_false]
  rfl

/-- Round trip of the whole codec at the byte level, for any entry whose
timestamp is valid: `FromJson` recovers the entry from the serialized
bytes, with no constraint on the `level` string. -/
theorem FromJson_render {ts : Timestamp} (h : ts.Valid) (app lvl msg : String) :
    FromJson (String.mk (renderJson (entryJsonOf ts app lvl msg))) =
      .ok ⟨ts, app, lvl, msg⟩ := by
  rw [FromJson]
  rw [show (String.mk (renderJson (entryJsonOf ts app lvl msg))).data =
    renderJson (entryJsonOf ts app lvl msg) from rfl]
  rw [parseJson_render]
  exact decode_entryJsonOf h app lvl msg

theorem ToJson_ok {e : LogEntry} (h : e.timestamp.Valid) :
    e.ToJson = .ok (String.mk (renderJson
      (entryJsonOf e.timestamp e.application e.level e.message))) := by
  rw [LogEntry.ToJson, if_neg]
  obtain ⟨h1, h2, _⟩ := h
  omega

/-- Truncating the serialized bytes of any entry anywhere strictly before
their end makes `FromJson` fail. -/
theorem FromJson_truncated {e : LogEntry} {s : String} (hok : e.ToJson = .ok s)
    {n : Nat} (hn : n < s.data.length) :
    FromJson (String.mk (s.data.take n)) = .error .malformed := by
  rw [LogEntry.ToJson] at hok
  by_cases hy : e.timestamp.year < 0 ∨ 10000 ≤ e.timestamp.year
  · rw [if_pos hy] at hok
    exact absurd hok (by simp)
  · rw [if_neg hy] at hok
    simp only [Except.ok.injEq] at hok
    subst hok
    rw [FromJson]
    rw [show (String.mk ((String.mk (renderJson
      (entryJsonOf e.timestamp e.application e.level e.message))).data.take n)).data =
      (renderJson (entryJsonOf e.timestamp e.application e.level e.message)).take n
      from rfl]
    rw [parseJson_take_render (by exact hn)]

/-! ## The producer (`generateLogEntry`, `sendLog`, tick loop) -/

/-- The INFO message pool of `generateLogEntry`. -/
def infoMessages : List String :=
  ["User logged in successfully", "data Retrieved successfully",
   "Service Started", "Request completed"]

/-- The WARN message pool of `generateLogEntry`. -/
def warnMessages : List String :=
  ["Slow Database query", "High Memory usage", "Connection Pool almost full",
   "Password failed for user", "Unauthenticated user trying to access data"]

/-- The ERROR message pool of `generateLogEntry`. -/
def errorMessages : List String :=
  ["Database Connection Failed", "Invalid user credentials",
   "Backup Database not responding", "Service Unavailable", "Request Timeout"]

/-- The producer state: the application name fixed at process start (the
broker handle is the external collaborator and is not part of the model). -/
structure LogProducer where
  appName : String

/-- `generateLogEntry`: the random draws are made explicit — `levelRand`
is the `rand.Float32()` value in [0,1), and `msgIdx % pool.length` models
the `rand.Intn(len(pool))` draw. The switch on `levelRand` with
thresholds 0.6, 0.8, 0.95 picks the level and its message pool; the entry
carries the current time and the producer's application name. -/
def LogProducer.generateLogEntry (lp : LogProducer) (levelRand : ℚ) (msgIdx : Nat)
    (now : Timestamp) : LogEntry :=
  if levelRand < 0.6 then
    ⟨now, lp.appName, INFO, infoMessages.getD (msgIdx % infoMessages.length) ""⟩
  else if levelRand < 0.8 then
    ⟨now, lp.appName, WARN, warnMessages.getD (msgIdx % warnMessages.length) ""⟩
  else if levelRand < 0.95 then
    ⟨now, lp.appName, ERROR, errorMessages.getD (msgIdx % errorMessages.length) ""⟩
  else
    ⟨now, lp.appName, DEBUG, "debug trace information"⟩

/-- The message handed to `SendMessage`: topic, key, value, timestamp. -/
structure ProducerMessage where
  topic : String
  key : String
  value : String
  timestamp : Timestamp
deriving DecidableEq, Repr

/-- `sendLog`: generate an entry, serialize it (returning the wrapped
marshal error from the failure branch), and build the broker message with
the application name as key, the serialized bytes as value and the
entry's timestamp as message timestamp. The broker send itself is the
external boundary. -/
def LogProducer.sendLog (lp : LogProducer) (levelRand : ℚ) (msgIdx : Nat)
    (now : Timestamp) : Except MarshalError ProducerMessage :=
  match (lp.generateLogEntry levelRand msgIdx now).ToJson with
  | .error err => .error err
  | .ok jsondata =>
    .ok ⟨"raw-logs", (lp.generateLogEntry levelRand msgIdx now).application,
      jsondata, (lp.generateLogEntry levelRand msgIdx now).timestamp⟩

/-! ## The consumer (`displayLog`, `proccessLogMessage`, `ConsumeClaim`) -/

/-- The level-to-color map of `displayLog`. -/
def colors : List (LogLevel × String) :=
  [(DEBUG, "\x1b[36m"), (INFO, "\x1b[32m"), (WARN, "\x1b[33m"),
   (ERROR, "\x1b[31m"), (FATAL, "\x1b[35m")]

/-- The reset escape, also used as the no-color fallback for a level
missing from the map. -/
def reset : String := "\x1b[0m"

/-- The `colors[entry.Level]` lookup with its `exists` fallback. -/
def colorFor (l : LogLevel) : String :=
  match colors.lookup l with
  | some c => c
  | none => reset

/-- Decimal digits of a natural number, as `%d` prints them (fuelled
recursion; the fuel `n + 1` always suffices). -/
def natDigitsAux : Nat → Nat → List Char
  | 0, _ => []
  | f + 1, n => if n < 10 then [digitChar n] else natDigitsAux f (n / 10) ++ [digitChar (n % 10)]

/-- `%d` for a natural number. -/
def natRepr (n : Nat) : String := String.mk (natDigitsAux (n + 1) n)

/-- `%d` for a (signed) integer. -/
def intRepr (i : Int) : String :=
  if i < 0 then "-" ++ natRepr i.natAbs else natRepr i.natAbs

/-- The `15:04:05` layout used for the displayed timestamp. -/
def hms (t : Timestamp) : String :=
  String.mk (render2 t.hour) ++ ":" ++ String.mk (render2 t.minute) ++ ":" ++
    String.mk (render2 t.second)

/-- `displayLog`: the single rendered console line for one entry — the
color prefix, `[HH:MM:SS] [application] [LEVEL] message`, the color
reset, the ` (p:…, o:…)` annotation, and the newline of the final
`Println` (the three `fmt` calls concatenated). -/
def displayLog (entry : LogEntry) (partition : Int) (offset : Int) : String :=
  colorFor entry.level ++ "[" ++ hms entry.timestamp ++ "] [" ++
    entry.application ++ "] [" ++ entry.level ++ "] " ++ entry.message ++
    reset ++ " (p:" ++ intRepr partition ++ ", o:" ++ intRepr offset ++ ")" ++ "\n"

/-- A record delivered to `ConsumeClaim`. -/
structure ConsumerMessage where
  key : String
  value : String
  partition : Int
  offset : Int
deriving DecidableEq, Repr

/-- What one call of `proccessLogMessage` writes to the console. -/
inductive ConsumerOutput
  | parseErrorLog (err : UnmarshalError)
  | renderedLine (line : String)
deriving DecidableEq, Repr

/-- `proccessLogMessage`: deserialize; on error print the error line and
return, otherwise render via `displayLog`. -/
def proccessLogMessage (m : ConsumerMessage) : ConsumerOutput :=
  match FromJson m.value with
  | .error err => .parseErrorLog err
  | .ok entry => .renderedLine (displayLog entry m.partition m.offset)

/-- One observable event of the `select` in the `ConsumeClaim` loop:
a message arrives on the claim channel, the channel closes (a `nil`
receive), or the session context is done. -/
inductive ClaimEvent
  | msgArrived (m : ConsumerMessage)
  | channelClosed
  | ctxDone
deriving DecidableEq, Repr

/-- What one iteration of the `ConsumeClaim` loop does for one event:
what it prints, what it marks via `session.MarkMessage`, and whether it
returns from the loop. -/
structure IterationResult where
  output : Option ConsumerOutput
  marked : Option ConsumerMessage
  exits : Bool
deriving DecidableEq, Repr

/-- The body of the `ConsumeClaim` loop, one `select` resolution at a
time: a received message is processed and then marked in the same
iteration; a `nil` message or a done context returns from the loop. -/
def consumeClaimIteration : ClaimEvent → IterationResult
  | .msgArrived m => ⟨some (proccessLogMessage m), some m, false⟩
  | .channelClosed => ⟨none, none, true⟩
  | .ctxDone => ⟨none, none, true⟩

/-- The `ConsumeClaim` loop over a sequence of `select` resolutions:
collects the console outputs and the marked messages, in order, stopping
at the first exiting event. -/
def consumeClaimRun : List ClaimEvent → List ConsumerOutput × List ConsumerMessage
  | [] => ([], [])
  | ev :: rest =>
    if (consumeClaimIteration ev).exits then ([], [])
    else ((consumeClaimIteration ev).output.toList ++ (consumeClaimRun rest).1,
          (consumeClaimIteration ev).marked.toList ++ (consumeClaimRun rest).2)

/-! ## The two `main` loops -/

/-- A Go `error` value, identified by its message. -/
abbrev GoError := String

/-- `context.Background().Err()` — always `nil`. -/
def backgroundCtxErr : Option GoError := none

/-- Outcome of one turn of the consumer `main`'s session loop. -/
inductive ConsumerLoopOutcome
  | panicExit
  | rejoin
  | stop
deriving DecidableEq, Repr

/-- One turn of the consumer `main` goroutine's loop around
`client.Consume`: a non-nil error hits `log.Panicf` (process panic); on a
nil return the context error is checked (a non-nil one would stop the
loop) and otherwise the loop re-enters `Consume`, rejoining the group. -/
def consumerLoopIteration (consumeErr : Option GoError) (ctxErr : Option GoError) :
    ConsumerLoopOutcome :=
  match consumeErr with
  | some _ => .panicExit
  | none =>
    match ctxErr with
    | some _ => .stop
    | none => .rejoin

/-- Outcome of one tick of the producer `main` loop. -/
inductive ProducerTickOutcome
  | logErrorAndContinue (e : GoError)
  | sentAndContinue
deriving DecidableEq, Repr

/-- One tick of the producer `main` loop: a failed `sendLog` is printed
and the loop continues; a successful one continues silently. -/
def producerTickIteration (sendErr : Option GoError) : ProducerTickOutcome :=
  match sendErr with
  | some e => .logErrorAndContinue e
  | none => .sentAndContinue

/-! ## Supporting lemmas for the claims -/

theorem isDigit_digitChar {d : Nat} (h : d < 10) : (digitChar d).isDigit = true := by
  interval_cases d <;> decide

theorem mem_natDigitsAux_isDigit :
    ∀ {f n : Nat} {c : Char}, c ∈ natDigitsAux f n → c.isDigit = true := by
  intro f
  induction f with
  | zero => intro n c h; simp [natDigitsAux] at h
  | succ f ih =>
    intro n c h
    rw [natDigitsAux] at h
    by_cases hn : n < 10
    · rw [if_pos hn] at h
      simp only [List.mem_singleton] at h
      subst h
      exact isDigit_digitChar hn
    · rw [if_neg hn] at h
      simp only [List.mem_append, List.mem_singleton] at h
      rcases h with h | h
      · exact ih h
      · subst h
        exact isDigit_digitChar (Nat.mod_lt _ (by omega))

theorem count_newline_natRepr (n : Nat) : (natRepr n).data.count '\n' = 0 := by
  rw [List.count_eq_zero]
  intro hmem
  have := mem_natDigitsAux_isDigit (show '\n' ∈ natDigitsAux (n + 1) n from hmem)
  simp at this

theorem count_newline_intRepr (i : Int) : (intRepr i).data.count '\n' = 0 := by
  unfold intRepr
  by_cases h : i < 0
  · rw [if_pos h]
    rw [String.data_append, List.count_append, count_newline_natRepr]
    decide
  · rw [if_neg h]
    exact count_newline_natRepr _

theorem count_newline_render2 (n : Nat) : (render2 n).count '\n' = 0 := by
  rw [List.count_eq_zero]
  intro hmem
  simp only [render2, List.mem_cons, List.not_mem_nil, or_false] at hmem
  rcases hmem with h | h
  · have := isDigit_digitChar (show n / 10 % 10 < 10 from Nat.mod_lt _ (by omega))
    rw [← h] at this
    simp at this
  · have := isDigit_digitChar (show n % 10 < 10 from Nat.mod_lt _ (by omega))
    rw [← h] at this
    simp at this

theorem count_newline_hms (t : Timestamp) : (hms t).data.count '\n' = 0 := by
  unfold hms
  simp only [String.data_append, List.count_append]
  rw [count_newline_render2, count_newline_render2, count_newline_render2]
  decide

theorem colorFor_eq_or (l : LogLevel) :
    colorFor l = "\x1b[36m" ∨ colorFor l = "\x1b[32m" ∨ colorFor l = "\x1b[33m" ∨
    colorFor l = "\x1b[31m" ∨ colorFor l = "\x1b[35m" ∨ colorFor l = reset := by
  unfold colorFor colors
  by_cases h1 : l = "DEBUG"
  · rw [List.lookup, show (l == DEBUG) = true from beq_iff_eq.mpr h1]
    simp
  · rw [List.lookup, show (l == DEBUG) = false from beq_eq_false_iff_ne.mpr h1]
    by_cases h2 : l = "INFO"
    · rw [List.lookup, show (l == INFO) = true from beq_iff_eq.mpr h2]
      simp
    · rw [List.lookup, show (l == INFO) = false from beq_eq_false_iff_ne.mpr h2]
      by_cases h3 : l = "WARN"
      · rw [List.lookup, show (l == WARN) = true from beq_iff_eq.mpr h3]
        simp
      · rw [List.lookup, show (l == WARN) = false from beq_eq_false_iff_ne.mpr h3]
        by_cases h4 : l = "ERROR"
        · rw [List.lookup, show (l == ERROR) = true from beq_iff_eq.mpr h4]
          simp
        · rw [List.lookup, show (l == ERROR) = false from beq_eq_false_iff_ne.mpr h4]
          by_cases h5 : l = "FATAL"
          · rw [List.lookup, show (l == FATAL) = true from beq_iff_eq.mpr h5]
            simp
          · rw [List.lookup, show (l == FATAL) = false from beq_eq_false_iff_ne.mpr h5]
            simp [List.lookup]

theorem count_newline_colorFor (l : LogLevel) : (colorFor l).data.count '\n' = 0 := by
  rcases colorFor_eq_or l with h | h | h | h | h | h <;> rw [h] <;> decide

theorem colorFor_unknown {l : LogLevel} (h1 : l ≠ DEBUG) (h2 : l ≠ INFO)
    (h3 : l ≠ WARN) (h4 : l ≠ ERROR) (h5 : l ≠ FATAL) : colorFor l = reset := by
  unfold colorFor colors
  rw [List.lookup, show (l == DEBUG) = false from beq_eq_false_iff_ne.mpr h1,
    List.lookup, show (l == INFO) = false from beq_eq_false_iff_ne.mpr h2,
    List.lookup, show (l == WARN) = false from beq_eq_false_iff_ne.mpr h3,
    List.lookup, show (l == ERROR) = false from beq_eq_false_iff_ne.mpr h4,
    List.lookup, show (l == FATAL) = false from beq_eq_false_iff_ne.mpr h5,
    List.lookup]

/-- Every message pulled before the loop exits is processed and marked:
if the events up to some received message are all message arrivals, that
message's processing output and its mark are in the run's trace, whatever
comes afterwards (including an immediate shutdown). -/
theorem consumeClaimRun_complete :
    ∀ (pre : List ClaimEvent) (m : ConsumerMessage) (post : List ClaimEvent),
      (∀ ev ∈ pre, ∃ m', ev = ClaimEvent.msgArrived m') →
      proccessLogMessage m ∈ (consumeClaimRun (pre ++ ClaimEvent.msgArrived m :: post)).1 ∧
      m ∈ (consumeClaimRun (pre ++ ClaimEvent.msgArrived m :: post)).2 := by
  intro pre
  induction pre with
  | nil =>
    intro m post _
    rw [List.nil_append, consumeClaimRun]
    constructor
    · rw [if_neg (by rw [consumeClaimIteration]; simp)]
      simp [consumeClaimIteration]
    · rw [if_neg (by rw [consumeClaimIteration]; simp)]
      simp [consumeClaimIteration]
  | cons ev pre' ih =>
    intro m post hpre
    obtain ⟨m', rfl⟩ := hpre ev (by simp)
    rw [List.cons_append, consumeClaimRun]
    have hrest := ih m post (fun e he => hpre e (by simp [he]))
    constructor
    · rw [if_neg (by rw [consumeClaimIteration]; simp)]
      simp only [List.mem_append]
      right
      exact hrest.1
    · rw [if_neg (by rw [consumeClaimIteration]; simp)]
      simp only [List.mem_append]
      right
      exact hrest.2

theorem sendLog_shape (lp : LogProducer) (r : ℚ) (msgIdx : Nat) (now : Timestamp)
    (h0 : 0 ≤ now.year) (h1 : now.year < 10000) :
    ∃ m, lp.sendLog r msgIdx now = .ok m ∧ m.key = lp.appName ∧
      m.topic = "raw-logs" ∧ m.timestamp = now ∧
      (lp.generateLogEntry r msgIdx now).ToJson = .ok m.value := by
  have happ : (lp.generateLogEntry r msgIdx now).application = lp.appName := by
    unfold LogProducer.generateLogEntry
    split_ifs <;> rfl
  have hts : (lp.generateLogEntry r msgIdx now).timestamp = now := by
    unfold LogProducer.generateLogEntry
    split_ifs <;> rfl
  cases htj : (lp.generateLogEntry r msgIdx now).ToJson with
  | error err =>
    rw [LogEntry.ToJson, if_neg (by rw [hts]; omega)] at htj
    exact absurd htj (by simp)
  | ok js =>
    refine ⟨⟨"raw-logs", (lp.generateLogEntry r msgIdx now).application, js,
      (lp.generateLogEntry r msgIdx now).timestamp⟩, ?_, happ, rfl, hts, rfl⟩
    rw [LogProducer.sendLog, htj]

/-! ## The claims -/

/-- C1 counterexample: a `LogEntry` whose level is one of the five
enumerated values but whose timestamp year is 10000 cannot be round
tripped — `ToJson` already fails (`time.Time.MarshalJSON` rejects years
outside [0,9999]), so no serialized bytes exist to deserialize. -/
theorem roundtrip_fails_year_out_of_range :
    ((⟨⟨10000, 1, 1, 0, 0, 0, 0, 0⟩, "app", INFO, "boom"⟩ : LogEntry).level ∈
      [DEBUG, INFO, WARN, ERROR, FATAL]) ∧
    (⟨⟨10000, 1, 1, 0, 0, 0, 0, 0⟩, "app", INFO, "boom"⟩ : LogEntry).ToJson =
      .error .yearOutOfRange ∧
    ¬∃ s, (⟨⟨10000, 1, 1, 0, 0, 0, 0, 0⟩, "app", INFO, "boom"⟩ : LogEntry).ToJson =
      .ok s := by
  refine ⟨by decide, rfl, ?_⟩
  rintro ⟨s, hs⟩
  rw [show (⟨⟨10000, 1, 1, 0, 0, 0, 0, 0⟩, "app", INFO, "boom"⟩ : LogEntry).ToJson =
    .error .yearOutOfRange from rfl] at hs
  exact absurd hs (by simp)

/-- C1 (amended): for every `LogEntry` whose level is one of the five
enumerated values and whose timestamp is a calendar-valid wall-clock time
with year in [0,9999] — the range `time.Time.MarshalJSON` supports —
serialization succeeds and deserializing the produced bytes yields the
entry back: `FromJson (ToJson e) = e`. -/
theorem fromJson_toJson_roundtrip (e : LogEntry)
    (hlv : e.level ∈ [DEBUG, INFO, WARN, ERROR, FATAL]) (hts : e.timestamp.Valid) :
    ∃ s, e.ToJson = .ok s ∧ FromJson s = .ok e := by
  obtain ⟨ts, app, lvl, msg⟩ := e
  exact ⟨_, ToJson_ok hts, FromJson_render hts app lvl msg⟩

/-- C1 witness: the round trip at a concrete entry. -/
theorem fromJson_toJson_roundtrip_witness :
    ∃ s, (⟨⟨2024, 6, 15, 10, 30, 0, 500000000, -330⟩, "userService", INFO,
      "Service Started"⟩ : LogEntry).ToJson = .ok s ∧
    FromJson s = .ok ⟨⟨2024, 6, 15, 10, 30, 0, 500000000, -330⟩, "userService", INFO,
      "Service Started"⟩ :=
  fromJson_toJson_roundtrip _ (by decide) (by decide)

/-- C2 counterexample: a structurally valid serialized record whose
`level` field is `TRACE` — not one of the five enumerated values —
deserializes without error, the unknown level silently accepted. -/
theorem fromJson_unknown_level_no_error :
    FromJson "\x7b\"timestamp\":\"2024-01-02T03:04:05Z\",\"application\":\"app\",\"level\":\"TRACE\",\"message\":\"hi\"\x7d" =
      .ok ⟨⟨2024, 1, 2, 3, 4, 5, 0, 0⟩, "app", "TRACE", "hi"⟩ ∧
    ("TRACE" : LogLevel) ∉ [DEBUG, INFO, WARN, ERROR, FATAL] :=
  ⟨by decide, by decide⟩

/-- C2 (amended): `FromJson` performs no validation of the `level` field —
a structurally valid serialized record whose level is not one of the five
enumerated values deserializes successfully with that level string
preserved as-is (`LogLevel` is a bare string type and `json.Unmarshal`
decodes any JSON string into it). -/
theorem fromJson_accepts_any_level (ts : Timestamp) (hts : ts.Valid)
    (app msg : String) (lvl : LogLevel)
    (hlv : lvl ∉ [DEBUG, INFO, WARN, ERROR, FATAL]) :
    FromJson (String.mk (renderJson (entryJsonOf ts app lvl msg))) =
      .ok ⟨ts, app, lvl, msg⟩ :=
  FromJson_render hts app lvl msg

/-- C2 witness: the amended claim at a concrete record with level `TRACE`. -/
theorem fromJson_accepts_any_level_witness :
    FromJson (String.mk (renderJson
      (entryJsonOf ⟨2024, 1, 2, 3, 4, 5, 0, 0⟩ "app" "TRACE" "hi"))) =
      .ok ⟨⟨2024, 1, 2, 3, 4, 5, 0, 0⟩, "app", "TRACE", "hi"⟩ :=
  fromJson_accepts_any_level ⟨2024, 1, 2, 3, 4, 5, 0, 0⟩ (by decide) "app" "hi"
    "TRACE" (by decide)

/-- C3 counterexample: a structurally valid object missing every
`LogEntry` field (and one missing all but `level`) deserializes without
error — the missing fields silently keep their zero values instead of
producing a `MalformedRecord` error. -/
theorem fromJson_missing_fields_no_error :
    FromJson "\x7b\x7d" = .ok zeroEntry ∧
    FromJson "\x7b\"level\":\"INFO\"\x7d" = .ok ⟨zeroTimestamp, "", "INFO", ""⟩ :=
  ⟨by decide, by decide⟩

/-- C3 (amended): `FromJson` is total (it returns a value or an error,
never crashing the caller); truncating the serialized bytes of any entry
strictly before their end yields a `MalformedRecord`-style error, for
every truncation point; but an input missing fields is not an error: a
bare empty object deserializes to the zero entry. -/
theorem fromJson_truncation_errors_missing_fields_zero (e : LogEntry) (s : String)
    (hok : e.ToJson = .ok s) (n : Nat) (hn : n < s.data.length) :
    FromJson (String.mk (s.data.take n)) = .error .malformed ∧
    FromJson "\x7b\x7d" = .ok ⟨⟨1, 1, 1, 0, 0, 0, 0, 0⟩, "", "", ""⟩ :=
  ⟨FromJson_truncated hok hn, by decide⟩

/-- C3 witness: truncating the zero entry's serialization after five
bytes fails. -/
theorem fromJson_truncation_errors_witness :
    FromJson (String.mk ((String.mk (renderJson
      (entryJsonOf zeroTimestamp "" "" ""))).data.take 5)) = .error .malformed ∧
    FromJson "\x7b\x7d" = .ok ⟨⟨1, 1, 1, 0, 0, 0, 0, 0⟩, "", "", ""⟩ :=
  fromJson_truncation_errors_missing_fields_zero ⟨zeroTimestamp, "", "", ""⟩
    (String.mk (renderJson (entryJsonOf zeroTimestamp "" "" ""))) rfl 5 (by decide)

/-- C4: the generator's level policy is exactly the fixed bands of the
`switch` on the `rand.Float32()` draw — INFO below 0.6, WARN below 0.8,
ERROR below 0.95, DEBUG otherwise — and in particular the generated level
is never FATAL, for every draw and every message index. -/
theorem generateLogEntry_level_policy (lp : LogProducer) (r : ℚ) (msgIdx : Nat)
    (now : Timestamp) (h0 : 0 ≤ r) (h1 : r < 1) :
    ((r < 0.6 → (lp.generateLogEntry r msgIdx now).level = INFO) ∧
     (0.6 ≤ r → r < 0.8 → (lp.generateLogEntry r msgIdx now).level = WARN) ∧
     (0.8 ≤ r → r < 0.95 → (lp.generateLogEntry r msgIdx now).level = ERROR) ∧
     (0.95 ≤ r → (lp.generateLogEntry r msgIdx now).level = DEBUG)) ∧
    (lp.generateLogEntry r msgIdx now).level ≠ FATAL := by
  unfold LogProducer.generateLogEntry
  split_ifs with c1 c2 c3
  · exact ⟨⟨fun _ => rfl, fun ha _ => absurd c1 (not_lt.mpr ha),
      fun ha _ => absurd c1 (not_lt.mpr (by linarith)),
      fun ha => absurd c1 (not_lt.mpr (by linarith))⟩,
      by show INFO ≠ FATAL; decide⟩
  · exact ⟨⟨fun ha => absurd ha c1, fun _ _ => rfl,
      fun ha _ => absurd c2 (not_lt.mpr ha),
      fun ha => absurd c2 (not_lt.mpr (by linarith))⟩,
      by show WARN ≠ FATAL; decide⟩
  · exact ⟨⟨fun ha => absurd ha c1, fun _ hb => absurd hb c2,
      fun _ _ => rfl, fun ha => absurd c3 (not_lt.mpr ha)⟩,
      by show ERROR ≠ FATAL; decide⟩
  · exact ⟨⟨fun ha => absurd ha c1, fun _ hb => absurd hb c2,
      fun _ hb => absurd hb c3, fun _ => rfl⟩,
      by show DEBUG ≠ FATAL; decide⟩

/-- C4 witness: the policy instantiated at the draw 1/2. -/
theorem generateLogEntry_level_policy_witness :
    ((((1 : ℚ)/2) < 0.6 →
      ((LogProducer.mk "app").generateLogEntry (1/2) 0 zeroTimestamp).level = INFO) ∧
     (0.6 ≤ ((1 : ℚ)/2) → ((1 : ℚ)/2) < 0.8 →
      ((LogProducer.mk "app").generateLogEntry (1/2) 0 zeroTimestamp).level = WARN) ∧
     (0.8 ≤ ((1 : ℚ)/2) → ((1 : ℚ)/2) < 0.95 →
      ((LogProducer.mk "app").generateLogEntry (1/2) 0 zeroTimestamp).level = ERROR) ∧
     (0.95 ≤ ((1 : ℚ)/2) →
      ((LogProducer.mk "app").generateLogEntry (1/2) 0 zeroTimestamp).level = DEBUG)) ∧
    ((LogProducer.mk "app").generateLogEntry (1/2) 0 zeroTimestamp).level ≠ FATAL :=
  generateLogEntry_level_policy ⟨"app"⟩ (1/2) 0 zeroTimestamp (by norm_num) (by norm_num)

/-- C5: for every draw and in-range clock, `sendLog` builds the broker
message with the producer's application name as its key, the topic
`raw-logs`, the entry's timestamp as the message timestamp, and the
serialized entry as its value — hence all entries from one producer carry
the same partition key, its fixed `appName`. -/
theorem publish_wire_format (lp : LogProducer) (r : ℚ) (msgIdx : Nat) (now : Timestamp)
    (h0 : 0 ≤ now.year) (h1 : now.year < 10000) :
    ∃ m, lp.sendLog r msgIdx now = .ok m ∧ m.key = lp.appName ∧
      m.topic = "raw-logs" ∧ m.timestamp = now ∧
      (lp.generateLogEntry r msgIdx now).ToJson = .ok m.value :=
  sendLog_shape lp r msgIdx now h0 h1

/-- C5 witness: the wire format at a concrete draw and clock. -/
theorem publish_wire_format_witness :
    ∃ m, (LogProducer.mk "AuthService").sendLog (1/2) 3 ⟨2024, 1, 2, 3, 4, 5, 0, 0⟩ =
      .ok m ∧ m.key = (LogProducer.mk "AuthService").appName ∧
      m.topic = "raw-logs" ∧ m.timestamp = ⟨2024, 1, 2, 3, 4, 5, 0, 0⟩ ∧
      ((LogProducer.mk "AuthService").generateLogEntry (1/2) 3
        ⟨2024, 1, 2, 3, 4, 5, 0, 0⟩).ToJson = .ok m.value :=
  publish_wire_format ⟨"AuthService"⟩ (1/2) 3 ⟨2024, 1, 2, 3, 4, 5, 0, 0⟩
    (by decide) (by decide)

/-- C6 counterexample: a non-nil error from `client.Consume` — e.g. a
broken session — hits `log.Panicf` and terminates the process instead of
rejoining the group: the loop iteration's outcome is a panic, not a
rejoin. -/
theorem consume_error_panics_not_rejoin :
    consumerLoopIteration (some "kafka: session broken") backgroundCtxErr =
      .panicExit ∧
    ConsumerLoopOutcome.panicExit ≠ ConsumerLoopOutcome.rejoin :=
  ⟨rfl, by decide⟩

/-- C6 (amended): in the consumer `main` loop every non-nil `Consume`
error terminates the process via `log.Panicf` (only a nil return rejoins
the group by re-entering `Consume`), while in the producer loop a failed
publish only logs the error and continues to the next tick. -/
theorem loop_error_handling :
    (∀ (e : GoError) (ctx : Option GoError),
      consumerLoopIteration (some e) ctx = .panicExit) ∧
    consumerLoopIteration none backgroundCtxErr = .rejoin ∧
    (∀ e : GoError, producerTickIteration (some e) = .logErrorAndContinue e) ∧
    producerTickIteration none = .sentAndContinue :=
  ⟨fun _ _ => rfl, rfl, fun _ => rfl, rfl⟩

/-- C7: `displayLog` renders the single line
`[HH:MM:SS] [application] [LEVEL] message (p:…, o:…)` wrapped in the
level's color code and the reset code, with the color mapping DEBUG=cyan,
INFO=green, WARN=yellow, ERROR=red, FATAL=magenta and the reset (no
color) fallback for any other level; when the entry's fields contain no
newline the output is exactly one line. -/
theorem displayLog_format (e : LogEntry) (p o : Int) :
    displayLog e p o =
      colorFor e.level ++ "[" ++ hms e.timestamp ++ "] [" ++ e.application ++
        "] [" ++ e.level ++ "] " ++ e.message ++ reset ++ " (p:" ++ intRepr p ++
        ", o:" ++ intRepr o ++ ")" ++ "\n" ∧
    colorFor DEBUG = "\x1b[36m" ∧ colorFor INFO = "\x1b[32m" ∧
    colorFor WARN = "\x1b[33m" ∧ colorFor ERROR = "\x1b[31m" ∧
    colorFor FATAL = "\x1b[35m" ∧
    (∀ l : LogLevel, l ≠ DEBUG → l ≠ INFO → l ≠ WARN → l ≠ ERROR → l ≠ FATAL →
      colorFor l = reset) ∧
    ('\n' ∉ e.application.data → '\n' ∉ e.level.data → '\n' ∉ e.message.data →
      (displayLog e p o).data.count '\n' = 1) := by
  refine ⟨rfl, by decide, by decide, by decide, by decide, by decide,
    fun l h1 h2 h3 h4 h5 => colorFor_unknown h1 h2 h3 h4 h5, ?_⟩
  intro ha hl hm
  unfold displayLog
  simp only [String.data_append, List.count_append]
  rw [count_newline_colorFor, count_newline_hms, count_newline_intRepr,
    count_newline_intRepr]
  rw [List.count_eq_zero.mpr ha, List.count_eq_zero.mpr hl, List.count_eq_zero.mpr hm]
  decide

/-- C7 witness: the single-line property and the no-color fallback at
concrete inputs. -/
theorem displayLog_format_witness :
    (displayLog ⟨⟨2024, 1, 2, 3, 4, 5, 0, 0⟩, "app", "INFO", "hello"⟩ 2 7).data.count
      '\n' = 1 ∧
    colorFor "TRACE" = reset :=
  ⟨(displayLog_format ⟨⟨2024, 1, 2, 3, 4, 5, 0, 0⟩, "app", "INFO", "hello"⟩ 2
      7).2.2.2.2.2.2.2 (by decide) (by decide) (by decide),
   (displayLog_format ⟨⟨2024, 1, 2, 3, 4, 5, 0, 0⟩, "app", "INFO", "hello"⟩ 2
      7).2.2.2.2.2.2.1 "TRACE" (by decide) (by decide) (by decide) (by decide)
      (by decide)⟩

/-- C8: when a received record's value fails to deserialize, the loop
iteration logs the parse error, still marks the record as consumed via
`session.MarkMessage`, and does not exit — it continues to the next
record. -/
theorem malformed_record_logged_marked_continues (m : ConsumerMessage)
    (err : UnmarshalError) (h : FromJson m.value = .error err) :
    consumeClaimIteration (.msgArrived m) =
      ⟨some (.parseErrorLog err), some m, false⟩ := by
  unfold consumeClaimIteration
  dsimp only
  unfold proccessLogMessage
  rw [h]

/-- C8 witness: a record with unparsable bytes is logged, marked, and the
loop continues. -/
theorem malformed_record_logged_marked_continues_witness :
    consumeClaimIteration (.msgArrived ⟨"userService", "notjson", 0, 0⟩) =
      ⟨some (.parseErrorLog .malformed), some ⟨"userService", "notjson", 0, 0⟩, false⟩ :=
  malformed_record_logged_marked_continues ⟨"userService", "notjson", 0, 0⟩
    .malformed (by decide)

/-- C9: in the `ConsumeClaim` loop, a record pulled from the claim before
any exiting event is processed and marked in that same iteration: its
rendering and its mark appear in the loop's trace no matter what follows,
including an immediate session-done observation — no pulled record can be
dropped. -/
theorem pulled_records_rendered_before_exit (pre : List ClaimEvent)
    (m : ConsumerMessage) (post : List ClaimEvent)
    (hpre : ∀ ev ∈ pre, ∃ m', ev = ClaimEvent.msgArrived m') :
    proccessLogMessage m ∈ (consumeClaimRun (pre ++ ClaimEvent.msgArrived m :: post)).1 ∧
    m ∈ (consumeClaimRun (pre ++ ClaimEvent.msgArrived m :: post)).2 :=
  consumeClaimRun_complete pre m post hpre

/-- C9 witness: a record pulled immediately before the session-done event
is still rendered and marked. -/
theorem pulled_records_rendered_before_exit_witness :
    proccessLogMessage ⟨"k", "v", 0, 0⟩ ∈
      (consumeClaimRun ([] ++ ClaimEvent.msgArrived ⟨"k", "v", 0, 0⟩ ::
        [ClaimEvent.ctxDone])).1 ∧
    (⟨"k", "v", 0, 0⟩ : ConsumerMessage) ∈
      (consumeClaimRun ([] ++ ClaimEvent.msgArrived ⟨"k", "v", 0, 0⟩ ::
        [ClaimEvent.ctxDone])).2 :=
  pulled_records_rendered_before_exit [] ⟨"k", "v", 0, 0⟩ [ClaimEvent.ctxDone]
    (by simp)

/-- C10 counterexample: serialization is not total — `ToJson` fails for
an entry whose timestamp year is 10000, and `sendLog`'s marshal-failure
branch is reachable with such a clock. -/
theorem toJson_marshal_branch_reachable :
    (⟨⟨10000, 1, 1, 0, 0, 0, 0, 0⟩, "PaymentService", DEBUG, "trace"⟩ : LogEntry).ToJson =
      .error .yearOutOfRange ∧
    (LogProducer.mk "PaymentService").sendLog (1/2) 0 ⟨10000, 1, 1, 0, 0, 0, 0, 0⟩ =
      .error .yearOutOfRange := by
  refine ⟨rfl, ?_⟩
  rw [LogProducer.sendLog,
    show (LogProducer.mk "PaymentService").generateLogEntry (1/2) 0
        ⟨10000, 1, 1, 0, 0, 0, 0, 0⟩ =
      ⟨⟨10000, 1, 1, 0, 0, 0, 0, 0⟩, "PaymentService", INFO,
        infoMessages.getD (0 % infoMessages.length) ""⟩ from by
      rw [LogProducer.generateLogEntry, if_pos (by norm_num)]]
  rfl

/-- C10 (amended): `ToJson` succeeds exactly for timestamps whose year
lies in [0,9999] (`time.Time.MarshalJSON`'s supported range), and for
every in-range clock — including every time the producer reads from a
real clock — `sendLog` cannot take its marshal-failure branch. -/
theorem toJson_fails_iff_year_out_of_range :
    (∀ e : LogEntry, (∃ s, e.ToJson = .ok s) ↔
      0 ≤ e.timestamp.year ∧ e.timestamp.year < 10000) ∧
    (∀ (lp : LogProducer) (r : ℚ) (msgIdx : Nat) (now : Timestamp),
      0 ≤ now.year → now.year < 10000 → ∃ m, lp.sendLog r msgIdx now = .ok m) := by
  constructor
  · intro e
    constructor
    · rintro ⟨s, hs⟩
      rw [LogEntry.ToJson] at hs
      by_cases hy : e.timestamp.year < 0 ∨ 10000 ≤ e.timestamp.year
      · rw [if_pos hy] at hs
        exact absurd hs (by simp)
      · constructor <;> omega
    · rintro ⟨h0, h1⟩
      exact ⟨_, by rw [LogEntry.ToJson, if_neg (by omega)]⟩
  · intro lp r msgIdx now h0 h1
    obtain ⟨m, hm, _⟩ := sendLog_shape lp r msgIdx now h0 h1
    exact ⟨m, hm⟩

/-- C10 witness: serialization and `sendLog` at a concrete in-range clock. -/
theorem toJson_fails_iff_year_out_of_range_witness :
    (∃ s, (⟨⟨2024, 1, 2, 3, 4, 5, 0, 0⟩, "app", INFO, "m"⟩ : LogEntry).ToJson = .ok s) ∧
    (∃ m, (LogProducer.mk "app").sendLog (1/2) 0 ⟨2024, 1, 2, 3, 4, 5, 0, 0⟩ = .ok m) :=
  ⟨(toJson_fails_iff_year_out_of_range.1 _).mpr (by decide),
   toJson_fails_iff_year_out_of_range.2 ⟨"app"⟩ (1/2) 0 ⟨2024, 1, 2, 3, 4, 5, 0, 0⟩
     (by decide) (by decide)⟩
